/-
Verification of the react-keyhub shortcut dispatch engine.

The definitions below are a shallow embedding of src/utils.ts and
src/EventBus.ts (the first, authoritative copy of the duplicated class in
that file).  JS strings are modelled by Lean String (a wrapper around
List Char in this toolchain); JS String.prototype.split / Array.join with a
one-character separator are modelled by splitCh / intercalateCh on the
underlying character lists; JS Array.prototype.sort (a stable sort) is
modelled by a stable insertion sort; Array.from(new Set(xs)) is modelled by
jsSetDedup (keeps the first occurrence of each element).
-/
import Mathlib

namespace KeyHub

/-- Models JS `s.split(sep)` for a one-character separator, on character
lists.  `"".split(sep)` is `[""]`, so the empty list maps to `[[]]`. -/
def splitCh (sep : Char) : List Char → List (List Char)
  | [] => [[]]
  | c :: cs =>
    match splitCh sep cs with
    | [] => [[]]
    | t :: ts => if c = sep then [] :: t :: ts else (c :: t) :: ts

/-- Models JS `parts.join(sep)` for a one-character separator. -/
def intercalateCh (sep : Char) : List (List Char) → List Char
  | [] => []
  | [t] => t
  | t :: ts => t ++ sep :: intercalateCh sep ts

/-- Models JS `String.prototype.toLowerCase` (ASCII range, matching
`Char.toLower`). -/
def jsToLower (s : String) : String := ⟨s.data.map Char.toLower⟩

/-- Splits a string on a one-character separator, JS `split` semantics. -/
def jsSplit (sep : Char) (s : String) : List String :=
  (splitCh sep s.data).map String.mk

/-- Joins strings with a one-character separator, JS `join` semantics. -/
def jsJoin (sep : Char) (ts : List String) : String :=
  ⟨intercalateCh sep (ts.map String.data)⟩

/-- JS string `<` comparison: lexicographic on code units. -/
def charListLt : List Char → List Char → Bool
  | [], [] => false
  | [], _ :: _ => true
  | _ :: _, [] => false
  | a :: as, b :: bs => if a < b then true else if b < a then false else charListLt as bs

/-- JS string `<=`, derived from the strict comparison. -/
def jsStrLe (a b : String) : Bool := !(charListLt b.data a.data)

/-- One step of the stable insertion sort modelling JS `Array.sort()` on
strings. -/
def insertStr (x : String) : List String → List String
  | [] => [x]
  | y :: ys => if jsStrLe x y then x :: y :: ys else y :: insertStr x ys

/-- Stable sort of a string list, modelling default JS `Array.sort()`
(lexicographic). -/
def jsSort (l : List String) : List String := l.foldr insertStr []

/-- Worker for jsSetDedup: drops elements already seen. -/
def jsSetDedupAux (seen : List String) : List String → List String
  | [] => []
  | x :: xs => if x ∈ seen then jsSetDedupAux seen xs else x :: jsSetDedupAux (seen ++ [x]) xs

/-- Models JS `Array.from(new Set(xs))`: removes duplicates keeping the
first occurrence of each element. -/
def jsSetDedup (l : List String) : List String := jsSetDedupAux [] l

/-- The modifier alias list from normalizeKeyCombo in src/utils.ts. -/
def modifierAliases : List String :=
  ["ctrl", "control", "alt", "option", "shift", "meta", "cmd", "command", "win", "windows"]

/-- The modifier renaming from normalizeKeyCombo in src/utils.ts. -/
def normalizeModName (mod : String) : String :=
  if mod = "control" then "ctrl"
  else if mod = "option" then "alt"
  else if mod ∈ (["cmd", "command", "win", "windows"] : List String) then "meta"
  else mod

/-- The special-key renaming from normalizeKeyCombo in src/utils.ts. -/
def normalizeMainKey (key : String) : String :=
  if key = "space" then "space"
  else if key = "escape" then "esc"
  else if key = "arrowup" then "up"
  else if key = "arrowdown" then "down"
  else if key = "arrowleft" then "left"
  else if key = "arrowright" then "right"
  else key

/-- The `uniqueModifiers` of the single-chord branch of normalizeKeyCombo
(src/utils.ts lines 17-50): the modifier parts of the lowercased chord,
canonicalized, deduplicated and sorted. -/
def chordMods (keyCombo : String) : List String :=
  jsSort (jsSetDedup
    (((jsSplit '+' (jsToLower keyCombo)).filter (fun p => p ∈ modifierAliases)).map
      normalizeModName))

/-- The `normalizedMainKeys` of the single-chord branch of
normalizeKeyCombo (src/utils.ts lines 33-47): the non-modifier parts of
the lowercased chord, with special keys renamed. -/
def chordMains (keyCombo : String) : List String :=
  ((jsSplit '+' (jsToLower keyCombo)).filter (fun p => p ∉ modifierAliases)).map
    normalizeMainKey

/-- The output tokens of the single-chord branch (src/utils.ts line 53):
modifiers first, then main keys, with empty tokens dropped by
`filter(Boolean)`. -/
def chordTokens (keyCombo : String) : List String :=
  (chordMods keyCombo ++ chordMains keyCombo).filter (fun s => s ≠ "")

/-- The single-chord branch of normalizeKeyCombo (src/utils.ts lines
17-53). -/
def normalizeChord (keyCombo : String) : String := jsJoin '+' (chordTokens keyCombo)

/-- normalizeKeyCombo from src/utils.ts.  Falsy input yields the empty
string; a space-separated sequence is normalized chord by chord (the
recursive call of the source lands in the single-chord branch, and both
sides send the empty string to itself, so it is written with
normalizeChord directly); otherwise the single-chord branch runs. -/
def normalizeKeyCombo (keyCombo : String) : String :=
  if keyCombo = "" then ""
  else if ' ' ∈ keyCombo.data then
    jsJoin ' ' ((jsSplit ' ' keyCombo).map normalizeChord)
  else normalizeChord keyCombo

/-- A keyboard event as far as the engine reads it: the four modifier
flags, the key name, and whether the event target is a text-entry element
(input, textarea or contentEditable). -/
structure KeyEvent where
  ctrlKey : Bool
  altKey : Bool
  shiftKey : Bool
  metaKey : Bool
  key : String
  fromInputField : Bool
deriving DecidableEq, Repr

/-- eventToKeyCombo from src/utils.ts: collect held modifiers in the order
ctrl, alt, shift, meta, lowercase the key, rename special keys, and if the
key itself is a modifier return only the sorted modifiers, else the sorted
modifiers followed by the key, joined by plus signs. -/
def eventToKeyCombo (event : KeyEvent) : String :=
  let modifiers :=
    (if event.ctrlKey then ["ctrl"] else []) ++
    (if event.altKey then ["alt"] else []) ++
    (if event.shiftKey then ["shift"] else []) ++
    (if event.metaKey then ["meta"] else [])
  let key := jsToLower event.key
  let normalizedKey :=
    if key = " " then "space"
    else if key = "escape" then "esc"
    else if key = "arrowup" then "up"
    else if key = "arrowdown" then "down"
    else if key = "arrowleft" then "left"
    else if key = "arrowright" then "right"
    else key
  if key ∈ (["control", "ctrl", "alt", "shift", "meta", "command", "cmd"] : List String) then
    jsJoin '+' (jsSort modifiers)
  else
    jsJoin '+' (jsSort modifiers ++ [normalizedKey])

/-- The literal modifier-only filter list from the EventBus constructor
(src/EventBus.ts lines 71-77). -/
def modifierOnlyCombos : List String :=
  ["ctrl", "alt", "shift", "meta", "ctrl+alt", "ctrl+shift", "ctrl+meta",
   "alt+shift", "alt+meta", "shift+meta"]

/-- ShortcutStatus from src/types.ts. -/
inductive ShortcutStatus where
  | enabled
  | disabled
deriving DecidableEq, Repr

/-- The type-specific part of a shortcut configuration: a regular shortcut
carries a keyCombo, a sequence shortcut carries a space-separated
sequence. -/
inductive SKind where
  | regular (keyCombo : String)
  | sequence (seq : String)
deriving DecidableEq, Repr

/-- ShortcutConfig from src/types.ts, restricted to the fields dispatch
reads.  The optional default action is modelled by its only
dispatch-relevant behavior: `some b` is a present action that throws iff
`b`; callbacks themselves are opaque, so runs are recorded symbolically. -/
structure ShortcutConfig where
  kind : SKind
  priority : Int
  status : ShortcutStatus
  context : Option String
  action : Option Bool
  group : Option String
deriving DecidableEq, Repr

/-- ShortcutSubscription from src/types.ts; the callback is modelled by
whether it throws when invoked (`throws`), its identity by `id`. -/
structure Subscription where
  id : String
  throws : Bool
  priority : Int
  shortcutId : String
deriving DecidableEq, Repr

/-- The EventBus options that affect dispatch (src/types.ts
EventBusOptions; target and listener wiring are outside the model). -/
structure Options where
  preventDefault : Bool
  stopPropagation : Bool
  debounceTime : Nat
  sequenceTimeout : Nat
  ignoreInputFields : Bool
  ignoreModifierOnlyEvents : Bool
deriving DecidableEq, Repr

/-- DEFAULT_OPTIONS from src/EventBus.ts. -/
def defaultOptions : Options :=
  { preventDefault := true, stopPropagation := true, debounceTime := 0,
    sequenceTimeout := 1000, ignoreInputFields := true, ignoreModifierOnlyEvents := true }

/-- A recorded handler invocation: a subscription callback (by
subscription id and the shortcut id stored on the subscription) or a
shortcut default action (by shortcut id). -/
inductive HRun where
  | cb (subId : String) (shortcutId : String)
  | act (shortcutId : String)
deriving DecidableEq, Repr

/-- JS object / Map lookup on an insertion-ordered association list. -/
def objGet {α : Type} : List (String × α) → String → Option α
  | [], _ => none
  | (k, v) :: rest, key => if k = key then some v else objGet rest key

/-- JS object / Map assignment: overwrite in place (the key keeps its
insertion position) or append a new entry. -/
def objSet {α : Type} : List (String × α) → String → α → List (String × α)
  | [], key, v => [(key, v)]
  | (k, w) :: rest, key, v =>
    if k = key then (k, v) :: rest else (k, w) :: objSet rest key v

/-- JS `delete obj[key]`. -/
def objDelete {α : Type} : List (String × α) → String → List (String × α)
  | [], _ => []
  | (k, w) :: rest, key => if k = key then rest else (k, w) :: objDelete rest key

/-- EventBus state (src/EventBus.ts fields): the registry is the JS object
`shortcuts` (insertion-ordered), the subscription table the Map
`subscriptions`, plus active context, sequence buffer, the pending
sequence-timeout deadline in absolute milliseconds, and the paused flag. -/
structure EventBus where
  shortcuts : List (String × ShortcutConfig)
  subscriptions : List (String × List Subscription)
  options : Options
  activeContext : Option String
  sequenceBuffer : List String
  sequenceTimer : Option Nat
  paused : Bool
deriving DecidableEq, Repr

/-- The EventBus constructor state (listener wiring aside). -/
def mkEventBus (shortcuts : List (String × ShortcutConfig)) (options : Options) : EventBus :=
  { shortcuts := shortcuts, subscriptions := [], options := options,
    activeContext := none, sequenceBuffer := [], sequenceTimer := none, paused := false }

/-- The context guard appearing in both dispatch paths:
`!config.context || activeContext === config.context` (a missing or empty
context string is falsy and gates nothing). -/
def contextOk (activeContext : Option String) (context : Option String) : Bool :=
  match context with
  | none => true
  | some c => if c = "" then true else activeContext = some c

/-- One step of the stable insertion sort by priority descending,
modelling JS `sort((a, b) => b.priority - a.priority)` (stable). -/
def insertPrio {α : Type} (prio : α → Int) (x : α) : List α → List α
  | [] => [x]
  | y :: ys => if prio y ≤ prio x then x :: y :: ys else y :: insertPrio prio x ys

/-- Stable sort by priority descending. -/
def sortByPrioDesc {α : Type} (prio : α → Int) (l : List α) : List α :=
  l.foldr (insertPrio prio) []

/-- The sequence-shortcut filter of handleSequence (src/EventBus.ts lines
168-172): entries whose config is sequence-typed and whose sequence equals
the joined buffer. -/
def matchingSequenceEntries (shortcuts : List (String × ShortcutConfig))
    (currentSequence : String) : List (String × ShortcutConfig) :=
  shortcuts.filter (fun e =>
    match e.2.kind with
    | SKind.sequence s => s = currentSequence
    | SKind.regular _ => false)

/-- The callback loop of handleSequence (src/EventBus.ts lines 201-209):
invoke callbacks in order; a successful callback sets handled and breaks;
a throwing callback is caught (logged) and the loop continues with the
next subscription.  Returns the handled flag and the recorded runs. -/
def seqCallbackLoop : List Subscription → Bool × List HRun
  | [] => (false, [])
  | sub :: rest =>
    if sub.throws then
      let r := seqCallbackLoop rest
      (r.1, HRun.cb sub.id sub.shortcutId :: r.2)
    else (true, [HRun.cb sub.id sub.shortcutId])

/-- The run list produced for one matched sequence entry once the gates
passed: the callback loop runs, and if no callback was executed and a
default action exists, the action is invoked (src/EventBus.ts lines
196-218; a throwing action is caught). -/
def seqFireRuns (subs : List Subscription) (action : Option Bool) (shortcutId : String) :
    List HRun :=
  (seqCallbackLoop subs).2 ++
    (if (seqCallbackLoop subs).1 = false ∧ action.isSome then [HRun.act shortcutId] else [])

/-- The per-entry body of the forEach in handleSequence (src/EventBus.ts
lines 176-219): skip disabled entries and entries whose context mismatches
the active context; otherwise look up subscriptions under the raw shortcut
id and produce the runs. -/
def seqFireOne (subscriptions : List (String × List Subscription))
    (activeContext : Option String) (e : String × ShortcutConfig) : List HRun :=
  if e.2.status = ShortcutStatus.disabled then []
  else if ¬ contextOk activeContext e.2.context then []
  else seqFireRuns ((objGet subscriptions e.1).getD []) e.2.action e.1

/-- handleSequence (src/EventBus.ts lines 150-228): push the chord onto
the buffer, reset the single timeout timer to fire sequenceTimeout ms from
now, and if the joined buffer matches any sequence shortcut, fire each
match and clear buffer and timer. -/
def handleSequence (bus : EventBus) (now : Nat) (keyCombo : String) :
    EventBus × List HRun :=
  let buffer := bus.sequenceBuffer ++ [keyCombo]
  let deadline := now + bus.options.sequenceTimeout
  let currentSequence := jsJoin ' ' buffer
  let sequenceShortcuts := matchingSequenceEntries bus.shortcuts currentSequence
  if sequenceShortcuts.isEmpty then
    ({ bus with sequenceBuffer := buffer, sequenceTimer := some deadline }, [])
  else
    let runs := sequenceShortcuts.foldl
      (fun runs e => runs ++ seqFireOne bus.subscriptions bus.activeContext e) []
    ({ bus with sequenceBuffer := [], sequenceTimer := none }, runs)

/-- The trigger string of a shortcut: its sequence for a sequence
shortcut, its keyCombo for a regular one (the shortcutKeyCombo computation
at src/EventBus.ts lines 396-398). -/
def triggerOf (shortcut : ShortcutConfig) : String :=
  match shortcut.kind with
  | SKind.sequence s => s
  | SKind.regular k => k

/-- One subscription step of the fallback-by-shortcut-id loop in emit
(src/EventBus.ts lines 385-420): once found, skip; a subscription whose
shortcut id is absent from the registry is skipped; if the shortcut has a
trigger normalizing to the current combo, the callback is invoked — a
successful call sets found, a throwing call is caught and leaves found
unset. -/
def emitFallbackSub (shortcuts : List (String × ShortcutConfig))
    (normalizedKeyCombo : String) (st : Bool × List HRun) (sub : Subscription) :
    Bool × List HRun :=
  if st.1 then st
  else
    match objGet shortcuts sub.shortcutId with
    | none => st
    | some shortcut =>
      if normalizeKeyCombo (triggerOf shortcut) = normalizedKeyCombo then
        (!sub.throws, st.2 ++ [HRun.cb sub.id sub.shortcutId])
      else st

/-- The whole fallback-by-shortcut-id pass of emit: fold over every bucket
and every subscription in Map insertion order. -/
def emitFallback (shortcuts : List (String × ShortcutConfig))
    (subscriptions : List (String × List Subscription))
    (normalizedKeyCombo : String) : Bool × List HRun :=
  subscriptions.foldl
    (fun st e => e.2.foldl (emitFallbackSub shortcuts normalizedKeyCombo) st)
    (false, [])

/-- The candidate enumeration of emit (src/EventBus.ts lines 425-436):
non-sequence entries whose normalized keyCombo equals the dispatched
combo. -/
def chordEntries (shortcuts : List (String × ShortcutConfig))
    (normalizedKeyCombo : String) : List (String × ShortcutConfig) :=
  shortcuts.filter (fun e =>
    match e.2.kind with
    | SKind.sequence _ => false
    | SKind.regular keyCombo => normalizeKeyCombo keyCombo = normalizedKeyCombo)

/-- Candidate selection of emit (src/EventBus.ts lines 438-464): if no
candidate exists, none; otherwise sort candidates by priority descending
(stably) and take the first enabled one whose context gate passes. -/
def selectChordShortcut (shortcuts : List (String × ShortcutConfig))
    (activeContext : Option String) (normalizedKeyCombo : String) :
    Option (String × ShortcutConfig) :=
  let shortcutEntries := chordEntries shortcuts normalizedKeyCombo
  if shortcutEntries.isEmpty then none
  else
    (sortByPrioDesc (fun e => e.2.priority) shortcutEntries).find?
      (fun e => e.2.status == ShortcutStatus.enabled && contextOk activeContext e.2.context)

/-- The default-action invocation for the selected chord candidate
(src/EventBus.ts lines 479-487): an action runs only when a candidate was
selected and it carries one (a throw is caught). -/
def emitActionRuns (sel : Option (String × ShortcutConfig)) : List HRun :=
  match sel with
  | none => []
  | some e =>
    match e.2.action with
    | some _ => [HRun.act e.1]
    | none => []

/-- emit (src/EventBus.ts lines 337-488).  Direct path: if the bucket
under the normalized combo is non-empty, invoke its first callback (a
throw is caught) and return.  Otherwise run the fallback-by-shortcut-id
pass; if it found a handler, return.  Otherwise select the chord candidate
and invoke its default action when present. -/
def emit (bus : EventBus) (keyCombo : String) : List HRun :=
  let normalizedKeyCombo := normalizeKeyCombo keyCombo
  match (objGet bus.subscriptions normalizedKeyCombo).getD [] with
  | subscription :: _ => [HRun.cb subscription.id subscription.shortcutId]
  | [] =>
    let fb := emitFallback bus.shortcuts bus.subscriptions normalizedKeyCombo
    if fb.1 then fb.2
    else
      fb.2 ++
        emitActionRuns (selectChordShortcut bus.shortcuts bus.activeContext normalizedKeyCombo)

/-- The keydown handler built in the EventBus constructor (src/EventBus.ts
lines 54-84): bail when paused, when the event comes from an input field
and those are ignored, or when the computed chord is in the literal
modifier-only list and those are ignored; otherwise feed the chord to
handleSequence and then to emit. -/
def keydownHandler (bus : EventBus) (now : Nat) (event : KeyEvent) :
    EventBus × List HRun :=
  if bus.paused then (bus, [])
  else if bus.options.ignoreInputFields && event.fromInputField then (bus, [])
  else
    let keyCombo := eventToKeyCombo event
    if bus.options.ignoreModifierOnlyEvents && modifierOnlyCombos.contains keyCombo then
      (bus, [])
    else
      let r := handleSequence bus now keyCombo
      (r.1, r.2 ++ emit r.1 keyCombo)

/-- The sequence-timeout callback (src/EventBus.ts lines 160-162): clears
the buffer; the fired timer is no longer pending. -/
def fireSequenceTimer (bus : EventBus) : EventBus :=
  { bus with sequenceBuffer := [], sequenceTimer := none }

/-- A keydown delivered at absolute time `now`: the event loop first runs
the pending sequence-timeout callback if its deadline has passed, then the
keydown handler. -/
def keydownAt (bus : EventBus) (now : Nat) (event : KeyEvent) :
    EventBus × List HRun :=
  let bus :=
    match bus.sequenceTimer with
    | some d => if d ≤ now then fireSequenceTimer bus else bus
    | none => bus
  keydownHandler bus now event

/-- on (src/EventBus.ts lines 236-292): subscribing to an unknown shortcut
warns and returns the empty id; otherwise the bucket key is the normalized
keyCombo for a regular shortcut and the normalized shortcut id for a
sequence shortcut; the new subscription (with the priority snapshot) is
pushed and the bucket stably re-sorted by priority descending.  The random
generateId is modelled by the caller-supplied `subscriptionId`.  The
source method is named `on`, which is a reserved token here. -/
def onShortcut (bus : EventBus) (shortcutId : String) (subscriptionId : String)
    (cbThrows : Bool) : EventBus × String :=
  match objGet bus.shortcuts shortcutId with
  | none => (bus, "")
  | some shortcut =>
    let keyCombo :=
      match shortcut.kind with
      | SKind.sequence _ => shortcutId
      | SKind.regular k => k
    let normalizedKeyCombo := normalizeKeyCombo keyCombo
    let subscription : Subscription :=
      ⟨subscriptionId, cbThrows, shortcut.priority, shortcutId⟩
    let existing := (objGet bus.subscriptions normalizedKeyCombo).getD []
    let updated := sortByPrioDesc (fun s => s.priority) (existing ++ [subscription])
    ({ bus with subscriptions := objSet bus.subscriptions normalizedKeyCombo updated },
      subscriptionId)

/-- Removes the first subscription with the given id from a bucket. -/
def removeFirstSub : List Subscription → String → List Subscription
  | [], _ => []
  | sub :: rest, sid => if sub.id = sid then rest else sub :: removeFirstSub rest sid

/-- Worker for off: the first bucket containing the subscription id has it
removed, and the scan stops there. -/
def offList : List (String × List Subscription) → String →
    List (String × List Subscription)
  | [], _ => []
  | (keyCombo, subs) :: rest, sid =>
    if (subs.find? (fun sub => sub.id == sid)).isSome then
      (keyCombo, removeFirstSub subs sid) :: rest
    else (keyCombo, subs) :: offList rest sid

/-- off (src/EventBus.ts lines 308-330). -/
def off (bus : EventBus) (subscriptionId : String) : EventBus :=
  { bus with subscriptions := offList bus.subscriptions subscriptionId }

/-- Partial<ShortcutConfig> for updateShortcut: present fields
overwrite. -/
structure PartialConfig where
  kind : Option SKind
  priority : Option Int
  status : Option ShortcutStatus
  context : Option (Option String)
  action : Option (Option Bool)
  group : Option (Option String)
deriving DecidableEq, Repr

/-- The empty patch (no field present). -/
def emptyPatch : PartialConfig := ⟨none, none, none, none, none, none⟩

/-- The object spread `{ ...currentConfig, ...config }` of
updateShortcut. -/
def mergeConfig (current : ShortcutConfig) (patch : PartialConfig) : ShortcutConfig :=
  { kind := patch.kind.getD current.kind,
    priority := patch.priority.getD current.priority,
    status := patch.status.getD current.status,
    context := patch.context.getD current.context,
    action := patch.action.getD current.action,
    group := patch.group.getD current.group }

/-- updateShortcut (src/EventBus.ts lines 495-514): unknown ids warn and
no-op; otherwise the entry is replaced by the spread merge (the
regular/sequence cast branches build the same spread). -/
def updateShortcut (bus : EventBus) (shortcutId : String) (patch : PartialConfig) :
    EventBus :=
  match objGet bus.shortcuts shortcutId with
  | none => bus
  | some currentConfig =>
    { bus with shortcuts := objSet bus.shortcuts shortcutId (mergeConfig currentConfig patch) }

/-- registerShortcut (src/EventBus.ts lines 521-527): overwrites silently
(with a warning) when the id exists. -/
def registerShortcut (bus : EventBus) (shortcutId : String) (config : ShortcutConfig) :
    EventBus :=
  { bus with shortcuts := objSet bus.shortcuts shortcutId config }

/-- unregisterShortcut (src/EventBus.ts lines 533-540): unknown ids warn
and no-op; otherwise the entry is deleted. -/
def unregisterShortcut (bus : EventBus) (shortcutId : String) : EventBus :=
  match objGet bus.shortcuts shortcutId with
  | none => bus
  | some _ => { bus with shortcuts := objDelete bus.shortcuts shortcutId }

/-- enableShortcut (src/EventBus.ts lines 546-548). -/
def enableShortcut (bus : EventBus) (shortcutId : String) : EventBus :=
  updateShortcut bus shortcutId { emptyPatch with status := some ShortcutStatus.enabled }

/-- disableShortcut (src/EventBus.ts lines 554-556). -/
def disableShortcut (bus : EventBus) (shortcutId : String) : EventBus :=
  updateShortcut bus shortcutId { emptyPatch with status := some ShortcutStatus.disabled }

/-- setContext (src/EventBus.ts lines 133-135). -/
def setContext (bus : EventBus) (context : Option String) : EventBus :=
  { bus with activeContext := context }

/-- getShortcutsByGroup (src/EventBus.ts lines 571-578), as a function of
the registry contents. -/
def getShortcutsByGroup (shortcuts : List (String × ShortcutConfig)) (group : String) :
    List (String × ShortcutConfig) :=
  shortcuts.filter (fun e => e.2.group == some group)

/-- A minimal object heap for the aliasing behavior of getShortcuts:
references are naturals, each holding a top-level id-to-config table;
`next` is the next fresh reference. -/
structure Heap where
  mem : Nat → List (String × ShortcutConfig)
  next : Nat

/-- Allocates a fresh object holding the given table. -/
def heapAlloc (h : Heap) (v : List (String × ShortcutConfig)) : Heap × Nat :=
  ({ mem := fun r => if r = h.next then v else h.mem r, next := h.next + 1 }, h.next)

/-- getShortcuts (src/EventBus.ts lines 562-564): `return
{ ...this.shortcuts }` allocates a fresh object whose top-level entries
are exactly those of the registry object (the config values are the same
values, not deep copies). -/
def getShortcutsHeap (h : Heap) (registryRef : Nat) : Heap × Nat :=
  heapAlloc h (h.mem registryRef)

/-- Mutating insertion `obj[k] = v` on the object at reference `r`. -/
def heapSetEntry (h : Heap) (r : Nat) (k : String) (v : ShortcutConfig) : Heap :=
  { mem := fun r2 => if r2 = r then objSet (h.mem r) k v else h.mem r2, next := h.next }

/-- Mutating deletion `delete obj[k]` on the object at reference `r`. -/
def heapDeleteEntry (h : Heap) (r : Nat) (k : String) : Heap :=
  { mem := fun r2 => if r2 = r then objDelete (h.mem r) k else h.mem r2, next := h.next }

/-- A regular shortcut configuration (no group). -/
def mkRegular (keyCombo : String) (priority : Int) (status : ShortcutStatus)
    (context : Option String) (action : Option Bool) : ShortcutConfig :=
  ⟨SKind.regular keyCombo, priority, status, context, action, none⟩

/-- A sequence shortcut configuration (no group). -/
def mkSequence (seq : String) (priority : Int) (status : ShortcutStatus)
    (context : Option String) (action : Option Bool) : ShortcutConfig :=
  ⟨SKind.sequence seq, priority, status, context, action, none⟩

/-- A plain key press with no modifiers, not from an input field. -/
def evKey (k : String) : KeyEvent := ⟨false, false, false, false, k, false⟩

/-- A ctrl-modified key press, not from an input field. -/
def evCtrl (k : String) : KeyEvent := ⟨true, false, false, false, k, false⟩

/-- Every subscription callback held by the bus returns normally (none
throws). -/
def noThrowBus (bus : EventBus) : Prop :=
  ∀ e ∈ bus.subscriptions, ∀ sub ∈ e.2, sub.throws = false

/-- A bus with one enabled chord shortcut carrying a default action and no
subscriptions. -/
def c2actBus : EventBus :=
  mkEventBus [("save", mkRegular "ctrl+s" 100 ShortcutStatus.enabled none (some false))]
    defaultOptions

/-- c2actBus after disable(save). -/
def c2actBusDisabled : EventBus := disableShortcut c2actBus "save"

/-- c2actBus after disable(save) then enable(save). -/
def c2actBusReenabled : EventBus := enableShortcut c2actBusDisabled "save"

/-- A bus with one enabled chord shortcut gated on context vim, with a
default action and no subscriptions. -/
def c2vimBus : EventBus :=
  mkEventBus
    [("vimEsc", mkRegular "ctrl+q" 100 ShortcutStatus.enabled (some "vim") (some false))]
    defaultOptions

/-- A bus where a sequence shortcut was subscribed to and then
unregistered. -/
def c3seqBus : EventBus :=
  unregisterShortcut
    (onShortcut
      (mkEventBus [("gitcommit", mkSequence "g c" 100 ShortcutStatus.enabled none (some false))]
        defaultOptions)
      "gitcommit" "s1" false).1
    "gitcommit"

/-- A one-entry registry used to exercise the fallback path directly. -/
def c3wShortcuts : List (String × ShortcutConfig) :=
  [("s", mkRegular "g" 100 ShortcutStatus.enabled none none)]

/-- A subscription table with one bucket referencing the registry above. -/
def c3wSubs : List (String × List Subscription) := [("g", [⟨"x", false, 100, "s"⟩])]

/-- A one-object heap for the getShortcuts aliasing witness. -/
def c10heap : Heap :=
  ⟨fun r => if r = 0
    then [("save", mkRegular "ctrl+s" 100 ShortcutStatus.enabled none none)] else [], 1⟩

-- C1 counterexample scenario: two sequence shortcuts with the same trigger
def c1bus : EventBus :=
  mkEventBus
    [("seqA", mkSequence "g" 100 ShortcutStatus.enabled none (some false)),
     ("seqB", mkSequence "g" 90 ShortcutStatus.enabled none (some false))]
    defaultOptions

-- C2 counterexample scenario: disabled shortcut with a live subscription
def c2busStart : EventBus :=
  mkEventBus [("save", mkRegular "ctrl+s" 100 ShortcutStatus.enabled none none)]
    defaultOptions

def c2bus : EventBus :=
  disableShortcut (onShortcut c2busStart "save" "s1" false).1 "save"

-- C3 counterexample scenario: unregistered shortcut with a live subscription
def c3bus : EventBus :=
  unregisterShortcut (onShortcut c2busStart "save" "s1" false).1 "save"

-- C4 scenario: print (100) and goToFile (90, context editor), both subscribed
def c4busStart : EventBus :=
  mkEventBus
    [("print", mkRegular "ctrl+p" 100 ShortcutStatus.enabled none (some false)),
     ("goToFile", mkRegular "ctrl+p" 90 ShortcutStatus.enabled (some "editor") (some false))]
    defaultOptions

def c4bus : EventBus :=
  setContext (onShortcut (onShortcut c4busStart "print" "sp" false).1 "goToFile" "sg" false).1
    (some "editor")

-- C4 counterexample: higher-priority candidate without subscriber loses to
-- lower-priority candidate with one
def c4cexBus : EventBus :=
  (onShortcut
    (mkEventBus
      [("print", mkRegular "ctrl+p" 100 ShortcutStatus.enabled none (some false)),
       ("goToFile", mkRegular "ctrl+p" 90 ShortcutStatus.enabled none (some false))]
      defaultOptions)
    "goToFile" "sg" false).1

-- C5 scenario: sequence "g c" and timing
def c5bus : EventBus :=
  mkEventBus [("gc", mkSequence "g c" 100 ShortcutStatus.enabled none (some false))]
    defaultOptions

def c5afterG : EventBus := (keydownAt c5bus 0 (evKey "g")).1

-- C5 rolling-window demo: "a b c" with gaps of 900ms each fires even though
-- 1800ms passed since the first keystroke
def c5abcBus : EventBus :=
  mkEventBus [("abc", mkSequence "a b c" 100 ShortcutStatus.enabled none (some false))]
    defaultOptions

-- C7 chord part: a throwing top subscriber is caught, nothing else runs
def c7chordBus : EventBus :=
  (onShortcut (onShortcut
    (mkEventBus [("save", mkRegular "ctrl+s" 100 ShortcutStatus.enabled none (some false))]
      defaultOptions)
    "save" "t1" true).1 "save" "t2" false).1

-- C7 counterexample (sequence path): throwing subscriber falls through to
-- the next one
def c7seqBus : EventBus :=
  (onShortcut (onShortcut
    (mkEventBus [("gitcommit", mkSequence "g c" 100 ShortcutStatus.enabled none (some false))]
      defaultOptions)
    "gitcommit" "t1" true).1 "gitcommit" "t2" false).1

-- C7: all subscribers throwing falls through to the default action
def c7seqBus2 : EventBus :=
  (onShortcut
    (mkEventBus [("gitcommit", mkSequence "g c" 100 ShortcutStatus.enabled none (some false))]
      defaultOptions)
    "gitcommit" "t1" true).1

-- C8 counterexample: alt pressed while ctrl held gives combo "alt+ctrl",
-- which is missing from the filter list, so it is not dropped
def c8bus : EventBus := mkEventBus [] defaultOptions

def c8event : KeyEvent := ⟨true, true, false, false, "Alt", false⟩

-- C9 demo A: sequence id that is a normalization fixed point fires its
-- subscriber
def c9busA : EventBus :=
  (onShortcut
    (mkEventBus [("gitcommit", mkSequence "g c" 100 ShortcutStatus.enabled none (some false))]
      defaultOptions)
    "gitcommit" "s1" false).1

-- C9 demo B: an id with an uppercase letter is stored under its normalized
-- form but looked up raw, so the default action runs instead
def c9busB : EventBus :=
  (onShortcut
    (mkEventBus [("gitCommit", mkSequence "g c" 100 ShortcutStatus.enabled none (some false))]
      defaultOptions)
    "gitCommit" "s1" false).1

/-! Lemmas about the string primitives. -/

theorem charToNat_ofNat_of_valid {n : Nat} (h : n.isValidChar) : (Char.ofNat n).toNat = n := by
  simp only [Char.ofNat, dif_pos h, Char.ofNatAux, Char.toNat, UInt32.toNat]
  rfl

theorem char_toLower_toLower (c : Char) : (c.toLower).toLower = c.toLower := by
  unfold Char.toLower
  by_cases h : c.toNat ≥ 65 ∧ c.toNat ≤ 90
  · have hval : (c.toNat + 32).isValidChar := by
      left
      omega
    have hn : (Char.ofNat (c.toNat + 32)).toNat = c.toNat + 32 :=
      charToNat_ofNat_of_valid hval
    simp only [if_pos h, hn]
    have : ¬ ((c.toNat + 32) ≥ 65 ∧ (c.toNat + 32) ≤ 90) := by omega
    simp only [if_neg this]
  · simp only [if_neg h]

theorem jsToLower_idem (s : String) : jsToLower (jsToLower s) = jsToLower s := by
  simp only [jsToLower, List.map_map]
  congr 1
  exact List.map_congr_left (fun c _ => char_toLower_toLower c)

theorem splitCh_ne_nil (sep : Char) (l : List Char) : splitCh sep l ≠ [] := by
  cases l with
  | nil => simp [splitCh]
  | cons c cs =>
    simp only [splitCh]
    rcases h : splitCh sep cs with _ | ⟨t, ts⟩
    · simp
    · by_cases hc : c = sep <;> simp [hc]

theorem sep_not_mem_of_mem_splitCh {sep : Char} {l : List Char} {t : List Char}
    (ht : t ∈ splitCh sep l) : sep ∉ t := by
  induction l generalizing t with
  | nil =>
    simp only [splitCh, List.mem_singleton] at ht
    subst ht
    simp
  | cons c cs ih =>
    cases h : splitCh sep cs with
    | nil => exact absurd h (splitCh_ne_nil sep cs)
    | cons u us =>
      simp only [splitCh, h] at ht
      by_cases hc : c = sep
      · simp only [if_pos hc, List.mem_cons] at ht
        rcases ht with ht | ht | ht
        · subst ht; simp
        · exact ih (ht ▸ (h ▸ List.mem_cons_self u us))
        · exact ih (h ▸ List.mem_cons_of_mem u ht)
      · simp only [if_neg hc, List.mem_cons] at ht
        rcases ht with ht | ht
        · subst ht
          intro hmem
          rcases List.mem_cons.mp hmem with hx | hx
          · exact hc hx.symm
          · exact ih (h ▸ List.mem_cons_self u us) hx
        · exact ih (h ▸ List.mem_cons_of_mem u ht)

theorem mem_of_mem_splitCh {sep : Char} {l t : List Char} {c : Char}
    (ht : t ∈ splitCh sep l) (hc : c ∈ t) : c ∈ l := by
  induction l generalizing t with
  | nil =>
    simp only [splitCh, List.mem_singleton] at ht
    subst ht
    simp at hc
  | cons a as ih =>
    cases h : splitCh sep as with
    | nil => exact absurd h (splitCh_ne_nil sep as)
    | cons u us =>
      simp only [splitCh, h] at ht
      by_cases ha : a = sep
      · simp only [if_pos ha, List.mem_cons] at ht
        rcases ht with ht | ht | ht
        · subst ht; simp at hc
        · exact List.mem_cons_of_mem a (ih (ht ▸ (h ▸ List.mem_cons_self u us)) hc)
        · exact List.mem_cons_of_mem a (ih (h ▸ List.mem_cons_of_mem u ht) hc)
      · simp only [if_neg ha, List.mem_cons] at ht
        rcases ht with ht | ht
        · subst ht
          rcases List.mem_cons.mp hc with hx | hx
          · exact hx ▸ List.mem_cons_self a as
          · exact List.mem_cons_of_mem a (ih (h ▸ List.mem_cons_self u us) hx)
        · exact List.mem_cons_of_mem a (ih (h ▸ List.mem_cons_of_mem u ht) hc)

theorem splitCh_of_not_mem {sep : Char} {t : List Char} (h : sep ∉ t) :
    splitCh sep t = [t] := by
  induction t with
  | nil => rfl
  | cons c cs ih =>
    have hc : c ≠ sep := fun hx => h (hx ▸ List.mem_cons_self c cs)
    have hcs : sep ∉ cs := fun hx => h (List.mem_cons_of_mem c hx)
    simp only [splitCh, ih hcs, if_neg hc]

theorem splitCh_append_sep {sep : Char} {t r : List Char} (h : sep ∉ t) :
    splitCh sep (t ++ sep :: r) = t :: splitCh sep r := by
  induction t with
  | nil =>
    simp only [List.nil_append, splitCh]
    rcases hr : splitCh sep r with _ | ⟨u, us⟩
    · exact absurd hr (splitCh_ne_nil sep r)
    · simp
  | cons c cs ih =>
    have hc : c ≠ sep := fun hx => h (hx ▸ List.mem_cons_self c cs)
    have hcs : sep ∉ cs := fun hx => h (List.mem_cons_of_mem c hx)
    show splitCh sep (c :: (cs ++ sep :: r)) = (c :: cs) :: splitCh sep r
    rw [splitCh, ih hcs]
    simp [if_neg hc]

theorem splitCh_intercalateCh {sep : Char} {ts : List (List Char)}
    (hne : ts ≠ []) (hsep : ∀ t ∈ ts, sep ∉ t) :
    splitCh sep (intercalateCh sep ts) = ts := by
  induction ts with
  | nil => exact absurd rfl hne
  | cons t rest ih =>
    cases rest with
    | nil =>
      simp only [intercalateCh]
      exact splitCh_of_not_mem (hsep t (List.mem_cons_self t []))
    | cons u us =>
      have hrest : splitCh sep (intercalateCh sep (u :: us)) = u :: us :=
        ih (by simp) (fun x hx => hsep x (List.mem_cons_of_mem t hx))
      simp only [intercalateCh]
      rw [splitCh_append_sep (hsep t (List.mem_cons_self t _)), hrest]

theorem charListLt_asymm : ∀ {a b : List Char}, charListLt a b = true → charListLt b a = false
  | [], [], h => by simp [charListLt] at h
  | [], _ :: _, _ => by simp [charListLt]
  | _ :: _, [], h => by simp [charListLt] at h
  | a :: as, b :: bs, h => by
    simp only [charListLt] at h ⊢
    by_cases hab : a < b
    · have : ¬ b < a := lt_asymm hab
      simp [this, hab]
    · simp only [if_neg hab] at h
      by_cases hba : b < a
      · simp [hba] at h
      · simp only [if_neg hba, if_neg hab] at h ⊢
        exact charListLt_asymm h

theorem jsStrLe_total (a b : String) : jsStrLe a b = true ∨ jsStrLe b a = true := by
  simp only [jsStrLe, Bool.not_eq_true']
  by_cases h : charListLt b.data a.data
  · exact Or.inr (charListLt_asymm h)
  · exact Or.inl (by simpa using h)

theorem charListLt_nil_right (a : List Char) : charListLt a [] = false := by
  cases a <;> rfl

theorem charListLt_trans : ∀ {a b c : List Char},
    charListLt a b = true → charListLt b c = true → charListLt a c = true
  | _, b, [], _, h2 => by rw [charListLt_nil_right b] at h2; cases h2
  | [], b, _ :: _, _, _ => by simp [charListLt]
  | _ :: _, [], _, h1, _ => by rw [charListLt_nil_right] at h1; cases h1
  | a :: as, b :: bs, c :: cs, h1, h2 => by
    simp only [charListLt] at h1 h2 ⊢
    by_cases hab : a < b
    · by_cases hbc : b < c
      · have : a < c := lt_trans hab hbc
        simp [this]
      · simp only [if_neg hbc] at h2
        by_cases hcb : c < b
        · simp [hcb] at h2
        · have hbceq : b = c := le_antisymm (not_lt.mp hcb) (not_lt.mp hbc)
          subst hbceq
          simp [hab]
    · simp only [if_neg hab] at h1
      by_cases hba : b < a
      · simp [hba] at h1
      · simp only [if_neg hba] at h1
        have habeq : a = b := le_antisymm (not_lt.mp hba) (not_lt.mp hab)
        subst habeq
        by_cases hac : a < c
        · simp [hac]
        · simp only [if_neg hac] at h2 ⊢
          by_cases hca : c < a
          · simp [hca] at h2
          · simp only [if_neg hca] at h2 ⊢
            exact charListLt_trans h1 h2

theorem charListLt_total : ∀ (a b : List Char),
    charListLt a b = true ∨ charListLt b a = true ∨ a = b
  | [], [] => Or.inr (Or.inr rfl)
  | [], _ :: _ => Or.inl (by simp [charListLt])
  | _ :: _, [] => Or.inr (Or.inl (by simp [charListLt]))
  | a :: as, b :: bs => by
    rcases lt_trichotomy a b with h | h | h
    · exact Or.inl (by simp [charListLt, h])
    · subst h
      rcases charListLt_total as bs with h | h | h
      · exact Or.inl (by simp [charListLt, lt_irrefl, h])
      · exact Or.inr (Or.inl (by simp [charListLt, lt_irrefl, h]))
      · exact Or.inr (Or.inr (by rw [h]))
    · exact Or.inr (Or.inl (by simp [charListLt, h, lt_asymm h]))

theorem charListLt_false_of_eq (a : List Char) : charListLt a a = false := by
  induction a with
  | nil => rfl
  | cons c cs ih => simp [charListLt, ih]

theorem jsStrLe_trans {a b c : String} (h1 : jsStrLe a b = true) (h2 : jsStrLe b c = true) :
    jsStrLe a c = true := by
  simp only [jsStrLe, Bool.not_eq_true'] at h1 h2 ⊢
  by_cases hca : charListLt c.data a.data
  · -- from c < a we derive c < b or b < a, contradicting h2 or h1
    by_cases hcb : charListLt c.data b.data
    · simp [hcb] at h2
    · by_cases hbc : charListLt b.data c.data
      · have : charListLt b.data a.data = true := charListLt_trans hbc hca
        simp [this] at h1
      · -- b.data = c.data: neither direction holds; show b = c at list level
        have hbceq : b.data = c.data := by
          rcases charListLt_total b.data c.data with h | h | h
          · exact absurd h hbc
          · exact absurd h (by simpa using hcb)
          · exact h
        rw [← hbceq] at hca
        simp [hca] at h1
  · simpa using hca

theorem mem_insertStr {x z : String} : ∀ {l : List String},
    z ∈ insertStr x l ↔ z = x ∨ z ∈ l
  | [] => by simp [insertStr]
  | y :: ys => by
    simp only [insertStr]
    by_cases h : jsStrLe x y = true
    · rw [if_pos h]
      simp [List.mem_cons]
    · rw [if_neg h]
      simp only [List.mem_cons, mem_insertStr]
      tauto

theorem insertStr_perm (x : String) :
    ∀ (l : List String), List.Perm (insertStr x l) (x :: l)
  | [] => List.Perm.refl _
  | y :: ys => by
    simp only [insertStr]
    by_cases h : jsStrLe x y = true
    · rw [if_pos h]
    · rw [if_neg h]
      exact ((insertStr_perm x ys).cons y).trans (List.Perm.swap x y ys)

theorem insertStr_pairwise {x : String} : ∀ {l : List String},
    l.Pairwise (fun a b => jsStrLe a b = true) →
    (insertStr x l).Pairwise (fun a b => jsStrLe a b = true)
  | [], _ => by simp [insertStr]
  | y :: ys, hp => by
    simp only [insertStr]
    rcases List.pairwise_cons.mp hp with ⟨hy, hys⟩
    by_cases h : jsStrLe x y = true
    · rw [if_pos h]
      refine List.pairwise_cons.mpr ⟨?_, hp⟩
      intro z hz
      rcases List.mem_cons.mp hz with hz | hz
      · exact hz ▸ h
      · exact jsStrLe_trans h (hy z hz)
    · rw [if_neg h]
      refine List.pairwise_cons.mpr ⟨?_, insertStr_pairwise hys⟩
      intro z hz
      rcases mem_insertStr.mp hz with hz | hz
      · subst hz
        rcases jsStrLe_total z y with hxy | hyx
        · exact absurd hxy h
        · exact hyx
      · exact hy z hz

theorem insertStr_of_forall_le {x : String} {l : List String}
    (h : ∀ y ∈ l, jsStrLe x y = true) : insertStr x l = x :: l := by
  cases l with
  | nil => rfl
  | cons y ys =>
    simp only [insertStr]
    rw [if_pos (h y (List.mem_cons_self y ys))]

theorem jsSort_perm (l : List String) : List.Perm (jsSort l) l := by
  induction l with
  | nil => exact List.Perm.refl _
  | cons x xs ih =>
    simp only [jsSort, List.foldr_cons]
    exact (insertStr_perm x _).trans (ih.cons x)

theorem jsSort_pairwise (l : List String) :
    (jsSort l).Pairwise (fun a b => jsStrLe a b = true) := by
  induction l with
  | nil => simp [jsSort]
  | cons x xs ih =>
    simp only [jsSort, List.foldr_cons]
    exact insertStr_pairwise ih

theorem jsSort_eq_self_of_pairwise : ∀ {l : List String},
    l.Pairwise (fun a b => jsStrLe a b = true) → jsSort l = l
  | [], _ => rfl
  | x :: xs, hp => by
    rcases List.pairwise_cons.mp hp with ⟨hx, hxs⟩
    simp only [jsSort, List.foldr_cons]
    have : jsSort xs = xs := jsSort_eq_self_of_pairwise hxs
    simp only [jsSort] at this
    rw [this]
    exact insertStr_of_forall_le hx

theorem mem_jsSetDedupAux {z : String} : ∀ {l seen : List String},
    z ∈ jsSetDedupAux seen l ↔ z ∈ l ∧ z ∉ seen
  | [], seen => by simp [jsSetDedupAux]
  | x :: xs, seen => by
    simp only [jsSetDedupAux]
    by_cases h : x ∈ seen
    · rw [if_pos h]
      rw [mem_jsSetDedupAux]
      constructor
      · rintro ⟨hz, hns⟩
        exact ⟨List.mem_cons_of_mem x hz, hns⟩
      · rintro ⟨hz, hns⟩
        rcases List.mem_cons.mp hz with hz | hz
        · exact absurd (hz ▸ h) hns
        · exact ⟨hz, hns⟩
    · rw [if_neg h]
      simp only [List.mem_cons, mem_jsSetDedupAux, List.mem_append, List.mem_singleton]
      constructor
      · rintro (hz | ⟨hz, hns⟩)
        · subst hz
          exact ⟨Or.inl rfl, h⟩
        · exact ⟨Or.inr hz, fun hx => hns (Or.inl hx)⟩
      · rintro ⟨hz | hz, hns⟩
        · exact Or.inl hz
        · by_cases hzx : z = x
          · exact Or.inl hzx
          · exact Or.inr ⟨hz, fun hx => (by tauto : z ∈ seen ∨ z = x).elim (fun q => hns q) hzx⟩

theorem nodup_jsSetDedupAux : ∀ {l seen : List String}, (jsSetDedupAux seen l).Nodup
  | [], _ => List.nodup_nil
  | x :: xs, seen => by
    simp only [jsSetDedupAux]
    by_cases h : x ∈ seen
    · rw [if_pos h]
      exact nodup_jsSetDedupAux
    · rw [if_neg h]
      refine List.nodup_cons.mpr ⟨?_, nodup_jsSetDedupAux⟩
      intro hx
      rcases mem_jsSetDedupAux.mp hx with ⟨_, hns⟩
      exact hns (List.mem_append.mpr (Or.inr (List.mem_singleton.mpr rfl)))

theorem jsSetDedupAux_eq_self : ∀ {l seen : List String},
    l.Nodup → (∀ x ∈ l, x ∉ seen) → jsSetDedupAux seen l = l
  | [], _, _, _ => rfl
  | x :: xs, seen, hnd, hdis => by
    simp only [jsSetDedupAux]
    rw [if_neg (hdis x (List.mem_cons_self x xs))]
    congr 1
    rcases List.nodup_cons.mp hnd with ⟨hx, hxs⟩
    refine jsSetDedupAux_eq_self hxs ?_
    intro y hy hmem
    rcases List.mem_append.mp hmem with hmem | hmem
    · exact hdis y (List.mem_cons_of_mem x hy) hmem
    · exact hx ((List.mem_singleton.mp hmem) ▸ hy)

theorem mem_jsSetDedup {z : String} {l : List String} : z ∈ jsSetDedup l ↔ z ∈ l := by
  simp [jsSetDedup, mem_jsSetDedupAux]

theorem strMk_data (s : String) : String.mk s.data = s := rfl

theorem strData_mk (l : List Char) : (String.mk l).data = l := rfl

theorem strExt {a b : String} (h : a.data = b.data) : a = b :=
  congrArg String.mk h

theorem char_toLower_ne_space {c : Char} (h : c ≠ ' ') : Char.toLower c ≠ ' ' := by
  unfold Char.toLower
  by_cases hc : c.toNat ≥ 65 ∧ c.toNat ≤ 90
  · rw [if_pos hc]
    intro hx
    have := congrArg Char.toNat hx
    rw [charToNat_ofNat_of_valid (by left; omega)] at this
    have hsp : (' ' : Char).toNat = 32 := by decide
    omega
  · rw [if_neg hc]
    exact h

/-- The canonical modifier names resulting from normalizeModName on an
alias. -/
def M4 : List String := ["ctrl", "alt", "meta", "shift"]

theorem normalizeModName_mem_M4 {m : String} (h : m ∈ modifierAliases) :
    normalizeModName m ∈ M4 := by
  simp only [modifierAliases, List.mem_cons, List.not_mem_nil, or_false] at h
  rcases h with rfl | rfl | rfl | rfl | rfl | rfl | rfl | rfl | rfl | rfl <;> decide

theorem m4_facts {u : String} (h : u ∈ M4) :
    u ≠ "" ∧ u ∈ modifierAliases ∧ normalizeModName u = u ∧
    '+' ∉ u.data ∧ u.data.map Char.toLower = u.data ∧ ' ' ∉ u.data := by
  simp only [M4, List.mem_cons, List.not_mem_nil, or_false] at h
  rcases h with rfl | rfl | rfl | rfl <;> refine ⟨?_, ?_, ?_, ?_, ?_, ?_⟩ <;> decide

theorem normalizeMainKey_cases (k : String) :
    normalizeMainKey k ∈ (["space", "esc", "up", "down", "left", "right"] : List String) ∨
    normalizeMainKey k = k := by
  unfold normalizeMainKey
  split_ifs <;> simp

theorem s6_facts {u : String}
    (h : u ∈ (["space", "esc", "up", "down", "left", "right"] : List String)) :
    normalizeMainKey u = u ∧ u ∉ modifierAliases ∧ '+' ∉ u.data ∧
    u.data.map Char.toLower = u.data ∧ ' ' ∉ u.data := by
  simp only [List.mem_cons, List.not_mem_nil, or_false] at h
  rcases h with rfl | rfl | rfl | rfl | rfl | rfl <;> refine ⟨?_, ?_, ?_, ?_, ?_⟩ <;> decide

theorem normalizeMainKey_idem (k : String) :
    normalizeMainKey (normalizeMainKey k) = normalizeMainKey k := by
  rcases normalizeMainKey_cases k with h | h
  · exact (s6_facts h).1
  · exact congrArg normalizeMainKey h

theorem normalizeMainKey_not_alias {k : String} (h : k ∉ modifierAliases) :
    normalizeMainKey k ∉ modifierAliases := by
  rcases normalizeMainKey_cases k with hc | hc
  · exact (s6_facts hc).2.1
  · rw [hc]; exact h

theorem normalizeMainKey_noPlus {k : String} (h : '+' ∉ k.data) :
    '+' ∉ (normalizeMainKey k).data := by
  rcases normalizeMainKey_cases k with hc | hc
  · exact (s6_facts hc).2.2.1
  · rw [hc]; exact h

theorem normalizeMainKey_lowerFixed {k : String} (h : k.data.map Char.toLower = k.data) :
    (normalizeMainKey k).data.map Char.toLower = (normalizeMainKey k).data := by
  rcases normalizeMainKey_cases k with hc | hc
  · exact (s6_facts hc).2.2.2.1
  · rw [hc]; exact h

theorem normalizeMainKey_noSpace {k : String} (h : ' ' ∉ k.data) :
    ' ' ∉ (normalizeMainKey k).data := by
  rcases normalizeMainKey_cases k with hc | hc
  · exact (s6_facts hc).2.2.2.2
  · rw [hc]; exact h

theorem nodup_jsSetDedup (l : List String) : (jsSetDedup l).Nodup := nodup_jsSetDedupAux

theorem jsSetDedup_eq_self {l : List String} (h : l.Nodup) : jsSetDedup l = l :=
  jsSetDedupAux_eq_self h (by simp)

theorem mem_intercalateCh {sep : Char} {ts : List (List Char)} {c : Char}
    (hc : c ∈ intercalateCh sep ts) : c = sep ∨ ∃ t ∈ ts, c ∈ t := by
  induction ts with
  | nil => simp [intercalateCh] at hc
  | cons t rest ih =>
    cases rest with
    | nil =>
      simp only [intercalateCh] at hc
      exact Or.inr ⟨t, List.mem_cons_self t [], hc⟩
    | cons u us =>
      simp only [intercalateCh, List.mem_append, List.mem_cons] at hc
      rcases hc with hc | hc | hc
      · exact Or.inr ⟨t, List.mem_cons_self t _, hc⟩
      · exact Or.inl hc
      · rcases ih hc with h | ⟨x, hx, hcx⟩
        · exact Or.inl h
        · exact Or.inr ⟨x, List.mem_cons_of_mem t hx, hcx⟩

theorem map_eq_self_of_fix {α : Type} {f : α → α} {l : List α} (h : ∀ c ∈ l, f c = c) :
    l.map f = l :=
  (List.map_congr_left h).trans (List.map_id l)

theorem fix_of_map_eq_self {α : Type} {f : α → α} : ∀ {l : List α},
    l.map f = l → ∀ c ∈ l, f c = c
  | [], _, c, hc => by simp at hc
  | x :: xs, h, c, hc => by
    simp only [List.map_cons, List.cons.injEq] at h
    rcases List.mem_cons.mp hc with hc | hc
    · exact hc ▸ h.1
    · exact fix_of_map_eq_self h.2 c hc

theorem mem_chordMods_M4 {s u : String} (hu : u ∈ chordMods s) : u ∈ M4 := by
  unfold chordMods at hu
  have h1 := (jsSort_perm _).mem_iff.mp hu
  have h2 := mem_jsSetDedup.mp h1
  rcases List.mem_map.mp h2 with ⟨m, hm, rfl⟩
  exact normalizeModName_mem_M4 (by simpa using List.of_mem_filter hm)

theorem chordMods_pairwise (s : String) :
    (chordMods s).Pairwise (fun a b => jsStrLe a b = true) :=
  jsSort_pairwise _

theorem chordMods_nodup (s : String) : (chordMods s).Nodup :=
  ((jsSort_perm _).nodup_iff).mpr (nodup_jsSetDedup _)

theorem chordMains_spec {s k : String} (hk : k ∈ chordMains s) :
    ∃ p, p ∈ jsSplit '+' (jsToLower s) ∧ p ∉ modifierAliases ∧ k = normalizeMainKey p := by
  unfold chordMains at hk
  rcases List.mem_map.mp hk with ⟨p, hp, rfl⟩
  exact ⟨p, List.mem_of_mem_filter hp, by simpa using List.of_mem_filter hp, rfl⟩

theorem parts_lowerFixed {s p : String} (hp : p ∈ jsSplit '+' (jsToLower s)) :
    p.data.map Char.toLower = p.data := by
  unfold jsSplit at hp
  rcases List.mem_map.mp hp with ⟨t, ht, rfl⟩
  rw [strData_mk]
  refine map_eq_self_of_fix ?_
  intro c hc
  have hcl : c ∈ (jsToLower s).data := mem_of_mem_splitCh ht hc
  unfold jsToLower at hcl
  rw [strData_mk] at hcl
  rcases List.mem_map.mp hcl with ⟨c0, _, rfl⟩
  exact char_toLower_toLower c0

theorem parts_noPlus {s p : String} (hp : p ∈ jsSplit '+' s) : '+' ∉ p.data := by
  unfold jsSplit at hp
  rcases List.mem_map.mp hp with ⟨t, ht, rfl⟩
  rw [strData_mk]
  exact sep_not_mem_of_mem_splitCh ht

theorem parts_noSpace {s p : String} (hp : p ∈ jsSplit '+' (jsToLower s))
    (hs : ' ' ∉ s.data) : ' ' ∉ p.data := by
  unfold jsSplit at hp
  rcases List.mem_map.mp hp with ⟨t, ht, rfl⟩
  rw [strData_mk]
  intro hc
  have hcl : ' ' ∈ (jsToLower s).data := mem_of_mem_splitCh ht hc
  unfold jsToLower at hcl
  rw [strData_mk] at hcl
  rcases List.mem_map.mp hcl with ⟨c0, hc0, hlow⟩
  by_cases hc0e : c0 = ' '
  · exact hs (hc0e ▸ hc0)
  · exact char_toLower_ne_space hc0e hlow

theorem chordTokens_facts {s t : String} (ht : t ∈ chordTokens s) :
    t ≠ "" ∧ '+' ∉ t.data ∧ t.data.map Char.toLower = t.data := by
  unfold chordTokens at ht
  have hne : t ≠ "" := by simpa using List.of_mem_filter ht
  have hmem := List.mem_of_mem_filter ht
  refine ⟨hne, ?_, ?_⟩
  · rcases List.mem_append.mp hmem with h | h
    · exact (m4_facts (mem_chordMods_M4 h)).2.2.2.1
    · rcases chordMains_spec h with ⟨p, hp, _, rfl⟩
      exact normalizeMainKey_noPlus (parts_noPlus hp)
  · rcases List.mem_append.mp hmem with h | h
    · exact (m4_facts (mem_chordMods_M4 h)).2.2.2.2.1
    · rcases chordMains_spec h with ⟨p, hp, _, rfl⟩
      exact normalizeMainKey_lowerFixed (parts_lowerFixed hp)

theorem normalizeChord_lowerFixed (s : String) :
    jsToLower (normalizeChord s) = normalizeChord s := by
  apply strExt
  show (normalizeChord s).data.map Char.toLower = (normalizeChord s).data
  unfold normalizeChord jsJoin
  rw [strData_mk]
  refine map_eq_self_of_fix ?_
  intro c hc
  rcases mem_intercalateCh hc with rfl | ⟨d, hd, hcd⟩
  · decide
  · rcases List.mem_map.mp hd with ⟨t, htt, rfl⟩
    exact fix_of_map_eq_self (chordTokens_facts htt).2.2 c hcd

theorem jsSplit_jsJoin {sep : Char} {ts : List String} (hne : ts ≠ [])
    (hsep : ∀ t ∈ ts, sep ∉ t.data) : jsSplit sep (jsJoin sep ts) = ts := by
  unfold jsSplit jsJoin
  rw [strData_mk]
  rw [splitCh_intercalateCh (by simpa using hne) ?_]
  · rw [List.map_map]
    exact map_eq_self_of_fix (fun t _ => strMk_data t)
  · intro d hd
    rcases List.mem_map.mp hd with ⟨t, ht, rfl⟩
    exact hsep t ht

theorem chordParts_of_normalizeChord {s : String} (h : chordTokens s ≠ []) :
    jsSplit '+' (jsToLower (normalizeChord s)) = chordTokens s := by
  rw [normalizeChord_lowerFixed]
  unfold normalizeChord
  exact jsSplit_jsJoin h (fun t ht => (chordTokens_facts ht).2.1)

theorem chordTokens_eq_append (s : String) :
    chordTokens s = chordMods s ++ (chordMains s).filter (fun t => t ≠ "") := by
  unfold chordTokens
  rw [List.filter_append]
  congr 1
  rw [List.filter_eq_self]
  intro a ha
  simpa using (m4_facts (mem_chordMods_M4 ha)).1

theorem chordTokens_filter_alias (s : String) :
    (chordTokens s).filter (fun p => p ∈ modifierAliases) = chordMods s := by
  rw [chordTokens_eq_append, List.filter_append]
  have h1 : (chordMods s).filter (fun p => p ∈ modifierAliases) = chordMods s := by
    rw [List.filter_eq_self]
    intro a ha
    simpa using (m4_facts (mem_chordMods_M4 ha)).2.1
  have h2 : ((chordMains s).filter (fun t => t ≠ "")).filter
      (fun p => p ∈ modifierAliases) = [] := by
    rw [List.filter_eq_nil_iff]
    intro a ha
    rcases chordMains_spec (List.mem_of_mem_filter ha) with ⟨p, _, hpa, rfl⟩
    simpa using normalizeMainKey_not_alias hpa
  rw [h1, h2, List.append_nil]

theorem chordTokens_filter_not_alias (s : String) :
    (chordTokens s).filter (fun p => p ∉ modifierAliases) =
      (chordMains s).filter (fun t => t ≠ "") := by
  rw [chordTokens_eq_append, List.filter_append]
  have h1 : (chordMods s).filter (fun p => p ∉ modifierAliases) = [] := by
    rw [List.filter_eq_nil_iff]
    intro a ha
    simpa using (m4_facts (mem_chordMods_M4 ha)).2.1
  have h2 : ((chordMains s).filter (fun t => t ≠ "")).filter
      (fun p => p ∉ modifierAliases) = (chordMains s).filter (fun t => t ≠ "") := by
    rw [List.filter_eq_self]
    intro a ha
    rcases chordMains_spec (List.mem_of_mem_filter ha) with ⟨p, _, hpa, rfl⟩
    simpa using normalizeMainKey_not_alias hpa
  rw [h1, h2, List.nil_append]

theorem chordMods_normalizeChord {s : String} (h : chordTokens s ≠ []) :
    chordMods (normalizeChord s) = chordMods s := by
  unfold chordMods
  rw [chordParts_of_normalizeChord h, chordTokens_filter_alias]
  have hmap : (chordMods s).map normalizeModName = chordMods s :=
    map_eq_self_of_fix (fun u hu => (m4_facts (mem_chordMods_M4 hu)).2.2.1)
  rw [hmap, jsSetDedup_eq_self (chordMods_nodup s),
    jsSort_eq_self_of_pairwise (chordMods_pairwise s)]
  rfl

theorem chordMains_normalizeChord {s : String} (h : chordTokens s ≠ []) :
    chordMains (normalizeChord s) = (chordMains s).filter (fun t => t ≠ "") := by
  unfold chordMains
  rw [chordParts_of_normalizeChord h, chordTokens_filter_not_alias]
  refine map_eq_self_of_fix ?_
  intro k hk
  rcases chordMains_spec (List.mem_of_mem_filter hk) with ⟨p, _, _, rfl⟩
  exact normalizeMainKey_idem p

theorem chordTokens_normalizeChord {s : String} (h : chordTokens s ≠ []) :
    chordTokens (normalizeChord s) = chordTokens s := by
  unfold chordTokens
  rw [chordMods_normalizeChord h, chordMains_normalizeChord h]
  rw [List.filter_append, List.filter_append]
  congr 1
  rw [List.filter_eq_self]
  intro a ha
  simpa using List.of_mem_filter ha

theorem normalizeChord_idem (s : String) :
    normalizeChord (normalizeChord s) = normalizeChord s := by
  by_cases h : chordTokens s = []
  · show normalizeChord (normalizeChord s) = normalizeChord s
    unfold normalizeChord
    rw [h]
    decide
  · calc normalizeChord (normalizeChord s)
        = jsJoin '+' (chordTokens (normalizeChord s)) := rfl
      _ = jsJoin '+' (chordTokens s) := by rw [chordTokens_normalizeChord h]
      _ = normalizeChord s := rfl

theorem normalizeChord_noSpace {s : String} (h : ' ' ∉ s.data) :
    ' ' ∉ (normalizeChord s).data := by
  unfold normalizeChord jsJoin
  rw [strData_mk]
  intro hc
  rcases mem_intercalateCh hc with hc | ⟨d, hd, hcd⟩
  · exact absurd hc (by decide)
  · rcases List.mem_map.mp hd with ⟨t, htt, rfl⟩
    unfold chordTokens at htt
    rcases List.mem_append.mp (List.mem_of_mem_filter htt) with hm | hm
    · exact (m4_facts (mem_chordMods_M4 hm)).2.2.2.2.2 hcd
    · rcases chordMains_spec hm with ⟨p, hp, _, rfl⟩
      exact normalizeMainKey_noSpace (parts_noSpace hp h) hcd

theorem splitCh_two_of_mem {sep : Char} : ∀ {l : List Char}, sep ∈ l →
    ∃ a b rest, splitCh sep l = a :: b :: rest
  | [], h => by simp at h
  | c :: cs, h => by
    by_cases hc : c = sep
    · cases hs : splitCh sep cs with
      | nil => exact absurd hs (splitCh_ne_nil sep cs)
      | cons t ts => exact ⟨[], t, ts, by simp [splitCh, hs, if_pos hc]⟩
    · have hmem : sep ∈ cs := by
        rcases List.mem_cons.mp h with h | h
        · exact absurd h.symm hc
        · exact h
      rcases splitCh_two_of_mem hmem with ⟨a, b, rest, hab⟩
      exact ⟨c :: a, b, rest, by simp [splitCh, hab, if_neg hc]⟩

theorem mem_sep_intercalateCh {sep : Char} {a b : List Char} {rest : List (List Char)} :
    sep ∈ intercalateCh sep (a :: b :: rest) := by
  simp only [intercalateCh]
  exact List.mem_append.mpr (Or.inr (List.mem_cons_self sep _))

theorem normalizeKeyCombo_of_space {s : String} (hne : s ≠ "") (hsp : ' ' ∈ s.data) :
    normalizeKeyCombo s = jsJoin ' ' ((jsSplit ' ' s).map normalizeChord) := by
  simp only [normalizeKeyCombo, if_neg hne]
  rw [if_pos hsp]

theorem normalizeKeyCombo_of_chord {s : String} (hne : s ≠ "") (hsp : ' ' ∉ s.data) :
    normalizeKeyCombo s = normalizeChord s := by
  simp only [normalizeKeyCombo, if_neg hne]
  rw [if_neg hsp]

theorem objGet_mem {α : Type} : ∀ {l : List (String × α)} {k : String} {v : α},
    objGet l k = some v → (k, v) ∈ l
  | [], _, _, h => by simp [objGet] at h
  | (k0, v0) :: rest, k, v, h => by
    simp only [objGet] at h
    by_cases hk : k0 = k
    · rw [if_pos hk] at h
      cases h
      exact hk ▸ List.mem_cons_self _ _
    · rw [if_neg hk] at h
      exact List.mem_cons_of_mem _ (objGet_mem h)

theorem objGet_none_not_mem {α : Type} : ∀ {l : List (String × α)} {k : String},
    objGet l k = none → ∀ v, (k, v) ∉ l
  | [], _, _, v, h => by simp at h
  | (k0, v0) :: rest, k, hget, v, h => by
    simp only [objGet] at hget
    by_cases hk : k0 = k
    · rw [if_pos hk] at hget
      cases hget
    · rw [if_neg hk] at hget
      rcases List.mem_cons.mp h with h | h
      · exact hk (congrArg Prod.fst h).symm
      · exact objGet_none_not_mem hget v h

theorem objGet_objSet_self {α : Type} : ∀ (l : List (String × α)) (k : String) (v : α),
    objGet (objSet l k v) k = some v
  | [], k, v => by simp [objSet, objGet]
  | (k0, v0) :: rest, k, v => by
    simp only [objSet]
    by_cases hk : k0 = k
    · rw [if_pos hk]
      simp [objGet, hk]
    · rw [if_neg hk]
      simp only [objGet, if_neg hk]
      exact objGet_objSet_self rest k v

theorem objGet_objSet_ne {α : Type} : ∀ (l : List (String × α)) (key k : String) (v : α),
    k ≠ key → objGet (objSet l key v) k = objGet l k
  | [], key, k, v, h => by
    simp [objSet, objGet, h, Ne.symm h]
  | (k0, v0) :: rest, key, k, v, h => by
    simp only [objSet]
    by_cases hk : k0 = key
    · rw [if_pos hk]
      simp only [objGet]
      by_cases hkk : k0 = k
      · exact absurd (hkk ▸ hk) h
      · rw [if_neg hkk, if_neg hkk]
    · rw [if_neg hk]
      simp only [objGet]
      by_cases hkk : k0 = k
      · rw [if_pos hkk, if_pos hkk]
      · rw [if_neg hkk, if_neg hkk]
        exact objGet_objSet_ne rest key k v h

theorem mem_insertPrio {α : Type} {prio : α → Int} {x z : α} : ∀ {l : List α},
    z ∈ insertPrio prio x l ↔ z = x ∨ z ∈ l
  | [] => by simp [insertPrio]
  | y :: ys => by
    simp only [insertPrio]
    by_cases h : prio y ≤ prio x
    · rw [if_pos h]
      simp [List.mem_cons]
    · rw [if_neg h]
      simp only [List.mem_cons, mem_insertPrio]
      tauto

theorem insertPrio_ne_nil {α : Type} {prio : α → Int} {x : α} : ∀ {l : List α},
    insertPrio prio x l ≠ []
  | [] => by simp [insertPrio]
  | y :: ys => by
    simp only [insertPrio]
    by_cases h : prio y ≤ prio x
    · rw [if_pos h]
      simp
    · rw [if_neg h]
      simp

theorem sortByPrioDesc_ne_nil {α : Type} {prio : α → Int} {x : α} {l : List α} :
    sortByPrioDesc prio (x :: l) ≠ [] := by
  simp only [sortByPrioDesc, List.foldr_cons]
  exact insertPrio_ne_nil

theorem insertPrio_pairwise {α : Type} {prio : α → Int} {x : α} : ∀ {l : List α},
    l.Pairwise (fun a b => prio b ≤ prio a) →
    (insertPrio prio x l).Pairwise (fun a b => prio b ≤ prio a)
  | [], _ => by simp [insertPrio]
  | y :: ys, hp => by
    simp only [insertPrio]
    rcases List.pairwise_cons.mp hp with ⟨hy, hys⟩
    by_cases h : prio y ≤ prio x
    · rw [if_pos h]
      refine List.pairwise_cons.mpr ⟨?_, hp⟩
      intro z hz
      rcases List.mem_cons.mp hz with hz | hz
      · exact hz ▸ h
      · exact le_trans (hy z hz) h
    · rw [if_neg h]
      refine List.pairwise_cons.mpr ⟨?_, insertPrio_pairwise hys⟩
      intro z hz
      rcases mem_insertPrio.mp hz with hz | hz
      · exact hz ▸ le_of_not_le h
      · exact hy z hz

theorem sortByPrioDesc_pairwise {α : Type} (prio : α → Int) (l : List α) :
    (sortByPrioDesc prio l).Pairwise (fun a b => prio b ≤ prio a) := by
  induction l with
  | nil => simp [sortByPrioDesc]
  | cons x xs ih =>
    simp only [sortByPrioDesc, List.foldr_cons] at ih ⊢
    exact insertPrio_pairwise ih

theorem mem_sortByPrioDesc {α : Type} {prio : α → Int} {z : α} : ∀ {l : List α},
    z ∈ sortByPrioDesc prio l ↔ z ∈ l
  | [] => Iff.rfl
  | x :: xs => by
    show z ∈ insertPrio prio x (sortByPrioDesc prio xs) ↔ z ∈ x :: xs
    rw [mem_insertPrio]
    constructor
    · rintro (h | h)
      · exact h ▸ List.mem_cons_self x xs
      · exact List.mem_cons_of_mem x ((@mem_sortByPrioDesc α prio z xs).mp h)
    · intro h
      rcases List.mem_cons.mp h with h | h
      · exact Or.inl h
      · exact Or.inr ((@mem_sortByPrioDesc α prio z xs).mpr h)

theorem find_pairwise_max {α : Type} {R : α → α → Prop} {p : α → Bool} :
    ∀ {l : List α} {x : α}, l.Pairwise R → l.find? p = some x →
      ∀ y ∈ l, p y = true → y = x ∨ R x y
  | [], _, _, h => by simp at h
  | a :: as, x, hp, hfind => by
    rcases List.pairwise_cons.mp hp with ⟨ha, has⟩
    intro y hy hpy
    by_cases hpa : p a = true
    · rw [List.find?_cons_of_pos _ hpa] at hfind
      cases hfind
      rcases List.mem_cons.mp hy with hy | hy
      · exact Or.inl hy
      · exact Or.inr (ha y hy)
    · rw [List.find?_cons_of_neg _ (by simpa using hpa)] at hfind
      rcases List.mem_cons.mp hy with hy | hy
      · exact absurd (hy ▸ hpy) hpa
      · exact find_pairwise_max has hfind y hy hpy

theorem normalizeKeyCombo_idem (x : String) :
    normalizeKeyCombo (normalizeKeyCombo x) = normalizeKeyCombo x := by
  by_cases hx : x = ""
  · subst hx
    decide
  · by_cases hsp : ' ' ∈ x.data
    · have h1 : normalizeKeyCombo x = jsJoin ' ' ((jsSplit ' ' x).map normalizeChord) :=
        normalizeKeyCombo_of_space hx hsp
      rcases splitCh_two_of_mem hsp with ⟨a, b, rest, hab⟩
      have hpieces : jsSplit ' ' x = String.mk a :: String.mk b :: rest.map String.mk := by
        unfold jsSplit
        rw [hab]
        rfl
      have hnosp : ∀ t ∈ (jsSplit ' ' x).map normalizeChord, ' ' ∉ t.data := by
        intro t ht
        rcases List.mem_map.mp ht with ⟨p, hp, rfl⟩
        have hpn : ' ' ∉ p.data := by
          unfold jsSplit at hp
          rcases List.mem_map.mp hp with ⟨u, hu, rfl⟩
          rw [strData_mk]
          exact sep_not_mem_of_mem_splitCh hu
        exact normalizeChord_noSpace hpn
      have hysp : ' ' ∈ (jsJoin ' ' ((jsSplit ' ' x).map normalizeChord)).data := by
        unfold jsJoin
        rw [strData_mk, hpieces]
        simp only [List.map_cons]
        exact mem_sep_intercalateCh
      have hyne : jsJoin ' ' ((jsSplit ' ' x).map normalizeChord) ≠ "" := by
        intro hz
        rw [hz] at hysp
        simp at hysp
      have hsplity : jsSplit ' ' (jsJoin ' ' ((jsSplit ' ' x).map normalizeChord)) =
          (jsSplit ' ' x).map normalizeChord := by
        refine jsSplit_jsJoin ?_ hnosp
        rw [hpieces]
        simp
      have hstep := normalizeKeyCombo_of_space hyne hysp
      rw [h1, hstep, hsplity, List.map_map]
      exact congrArg (jsJoin ' ') (List.map_congr_left (fun p _ => normalizeChord_idem p))
    · have h1 : normalizeKeyCombo x = normalizeChord x := normalizeKeyCombo_of_chord hx hsp
      rw [h1]
      by_cases h2 : normalizeChord x = ""
      · rw [h2]
        decide
      · have h3 : ' ' ∉ (normalizeChord x).data := normalizeChord_noSpace hsp
        rw [normalizeKeyCombo_of_chord h2 h3]
        exact normalizeChord_idem x

/-! Dispatch lemmas. -/

theorem emitFallbackSub_skip {shortcuts : List (String × ShortcutConfig)} {nk : String}
    {st : Bool × List HRun} {sub : Subscription} (hf : st.1 = true) :
    emitFallbackSub shortcuts nk st sub = st := by
  unfold emitFallbackSub
  rw [if_pos hf]

theorem emitFallbackSub_missing {shortcuts : List (String × ShortcutConfig)} {nk : String}
    {st : Bool × List HRun} {sub : Subscription} (hf : st.1 = false)
    (hreg : objGet shortcuts sub.shortcutId = none) :
    emitFallbackSub shortcuts nk st sub = st := by
  unfold emitFallbackSub
  rw [if_neg (by simp [hf]), hreg]

theorem emitFallbackSub_nomatch {shortcuts : List (String × ShortcutConfig)} {nk : String}
    {st : Bool × List HRun} {sub : Subscription} {shortcut : ShortcutConfig}
    (hf : st.1 = false) (hreg : objGet shortcuts sub.shortcutId = some shortcut)
    (hm : normalizeKeyCombo (triggerOf shortcut) ≠ nk) :
    emitFallbackSub shortcuts nk st sub = st := by
  unfold emitFallbackSub
  rw [if_neg (by simp [hf]), hreg]
  exact if_neg hm

theorem emitFallbackSub_match {shortcuts : List (String × ShortcutConfig)} {nk : String}
    {st : Bool × List HRun} {sub : Subscription} {shortcut : ShortcutConfig}
    (hf : st.1 = false) (hreg : objGet shortcuts sub.shortcutId = some shortcut)
    (hm : normalizeKeyCombo (triggerOf shortcut) = nk) :
    emitFallbackSub shortcuts nk st sub =
      (!sub.throws, st.2 ++ [HRun.cb sub.id sub.shortcutId]) := by
  unfold emitFallbackSub
  rw [if_neg (by simp [hf]), hreg]
  exact if_pos hm

theorem emitFallbackSub_inv {shortcuts : List (String × ShortcutConfig)} {nk : String}
    {st : Bool × List HRun} {sub : Subscription} (hthrow : sub.throws = false)
    (h1 : st.1 = false → st.2 = []) (h2 : st.2.length ≤ 1) :
    ((emitFallbackSub shortcuts nk st sub).1 = false →
      (emitFallbackSub shortcuts nk st sub).2 = []) ∧
    (emitFallbackSub shortcuts nk st sub).2.length ≤ 1 := by
  by_cases hf : st.1 = true
  · rw [emitFallbackSub_skip hf]
    exact ⟨h1, h2⟩
  · have hf2 : st.1 = false := by simpa using hf
    cases hreg : objGet shortcuts sub.shortcutId with
    | none =>
      rw [emitFallbackSub_missing hf2 hreg]
      exact ⟨h1, h2⟩
    | some shortcut =>
      by_cases hm : normalizeKeyCombo (triggerOf shortcut) = nk
      · rw [emitFallbackSub_match hf2 hreg hm, hthrow]
        refine ⟨by simp, ?_⟩
        rw [h1 hf2]
        simp
      · rw [emitFallbackSub_nomatch hf2 hreg hm]
        exact ⟨h1, h2⟩

theorem emitFallback_subs_inv {shortcuts : List (String × ShortcutConfig)} {nk : String} :
    ∀ {subs : List Subscription} {st : Bool × List HRun},
    (∀ s ∈ subs, s.throws = false) →
    (st.1 = false → st.2 = []) → st.2.length ≤ 1 →
    ((subs.foldl (emitFallbackSub shortcuts nk) st).1 = false →
      (subs.foldl (emitFallbackSub shortcuts nk) st).2 = []) ∧
    (subs.foldl (emitFallbackSub shortcuts nk) st).2.length ≤ 1
  | [], _, _, h1, h2 => ⟨h1, h2⟩
  | sub :: rest, st, hthrows, h1, h2 => by
    simp only [List.foldl_cons]
    have hsub := @emitFallbackSub_inv shortcuts nk st sub
      (hthrows sub (List.mem_cons_self _ _)) h1 h2
    exact @emitFallback_subs_inv shortcuts nk rest (emitFallbackSub shortcuts nk st sub)
      (fun s hs => hthrows s (List.mem_cons_of_mem _ hs)) hsub.1 hsub.2

theorem emitFallback_buckets_inv {shortcuts : List (String × ShortcutConfig)} {nk : String} :
    ∀ {bl : List (String × List Subscription)} {st : Bool × List HRun},
    (∀ e ∈ bl, ∀ s ∈ e.2, s.throws = false) →
    (st.1 = false → st.2 = []) → st.2.length ≤ 1 →
    ((bl.foldl (fun st e => e.2.foldl (emitFallbackSub shortcuts nk) st) st).1 = false →
      (bl.foldl (fun st e => e.2.foldl (emitFallbackSub shortcuts nk) st) st).2 = []) ∧
    (bl.foldl (fun st e => e.2.foldl (emitFallbackSub shortcuts nk) st) st).2.length ≤ 1
  | [], _, _, h1, h2 => ⟨h1, h2⟩
  | e :: rest, st, hnt, h1, h2 => by
    simp only [List.foldl_cons]
    have hb := @emitFallback_subs_inv shortcuts nk e.2 st
      (hnt e (List.mem_cons_self _ _)) h1 h2
    exact @emitFallback_buckets_inv shortcuts nk rest
      (e.2.foldl (emitFallbackSub shortcuts nk) st)
      (fun x hx => hnt x (List.mem_cons_of_mem _ hx)) hb.1 hb.2

theorem emitFallback_inv {bus : EventBus} {nk : String} (hnt : noThrowBus bus) :
    ((emitFallback bus.shortcuts bus.subscriptions nk).1 = false →
      (emitFallback bus.shortcuts bus.subscriptions nk).2 = []) ∧
    (emitFallback bus.shortcuts bus.subscriptions nk).2.length ≤ 1 := by
  unfold emitFallback
  exact emitFallback_buckets_inv hnt (fun _ => rfl) (by simp)

theorem emit_direct {bus : EventBus} {kc : String} {sub : Subscription}
    {rest : List Subscription}
    (hb : (objGet bus.subscriptions (normalizeKeyCombo kc)).getD [] = sub :: rest) :
    emit bus kc = [HRun.cb sub.id sub.shortcutId] := by
  simp only [emit]
  rw [hb]

theorem emit_no_direct {bus : EventBus} {kc : String}
    (hb : (objGet bus.subscriptions (normalizeKeyCombo kc)).getD [] = []) :
    emit bus kc =
      (if (emitFallback bus.shortcuts bus.subscriptions (normalizeKeyCombo kc)).1 then
        (emitFallback bus.shortcuts bus.subscriptions (normalizeKeyCombo kc)).2
      else
        (emitFallback bus.shortcuts bus.subscriptions (normalizeKeyCombo kc)).2 ++
          emitActionRuns
            (selectChordShortcut bus.shortcuts bus.activeContext (normalizeKeyCombo kc))) := by
  simp only [emit]
  rw [hb]

theorem emitActionRuns_length_le_one (sel : Option (String × ShortcutConfig)) :
    (emitActionRuns sel).length ≤ 1 := by
  cases sel with
  | none => simp [emitActionRuns]
  | some e =>
    cases ha : e.2.action with
    | none => simp [emitActionRuns, ha]
    | some b => simp [emitActionRuns, ha]

theorem emit_length_le_one {bus : EventBus} {keyCombo : String} (hnt : noThrowBus bus) :
    (emit bus keyCombo).length ≤ 1 := by
  cases hb : (objGet bus.subscriptions (normalizeKeyCombo keyCombo)).getD [] with
  | cons sub rest =>
    rw [emit_direct hb]
    simp
  | nil =>
    rw [emit_no_direct hb]
    have hfb := @emitFallback_inv bus (normalizeKeyCombo keyCombo) hnt
    by_cases hfound :
        (emitFallback bus.shortcuts bus.subscriptions (normalizeKeyCombo keyCombo)).1 = true
    · rw [if_pos hfound]
      exact hfb.2
    · rw [if_neg hfound]
      rw [hfb.1 (by simpa using hfound)]
      simpa using emitActionRuns_length_le_one _

theorem seqCallbackLoop_all_throw : ∀ {subs : List Subscription},
    (∀ s ∈ subs, s.throws = true) →
    seqCallbackLoop subs = (false, subs.map (fun s => HRun.cb s.id s.shortcutId))
  | [], _ => rfl
  | sub :: rest, h => by
    simp only [seqCallbackLoop]
    rw [if_pos (h sub (List.mem_cons_self _ _))]
    rw [@seqCallbackLoop_all_throw rest (fun s hs => h s (List.mem_cons_of_mem _ hs))]
    rfl

theorem seqCallbackLoop_head_ok {sub : Subscription} {rest : List Subscription}
    (h : sub.throws = false) :
    seqCallbackLoop (sub :: rest) = (true, [HRun.cb sub.id sub.shortcutId]) := by
  simp only [seqCallbackLoop]
  rw [if_neg (by simp [h])]

theorem seqFireOne_disabled {subsTable : List (String × List Subscription)}
    {ctx : Option String} {e : String × ShortcutConfig}
    (hd : e.2.status = ShortcutStatus.disabled) :
    seqFireOne subsTable ctx e = [] := by
  unfold seqFireOne
  rw [if_pos hd]

theorem seqFireOne_badContext {subsTable : List (String × List Subscription)}
    {ctx : Option String} {e : String × ShortcutConfig}
    (hc : contextOk ctx e.2.context = false) :
    seqFireOne subsTable ctx e = [] := by
  unfold seqFireOne
  by_cases hd : e.2.status = ShortcutStatus.disabled
  · rw [if_pos hd]
  · rw [if_neg hd, if_pos (by simp [hc])]

theorem seqFireOne_go {subsTable : List (String × List Subscription)}
    {ctx : Option String} {e : String × ShortcutConfig}
    (hd : e.2.status ≠ ShortcutStatus.disabled) (hc : contextOk ctx e.2.context = true) :
    seqFireOne subsTable ctx e = seqFireRuns ((objGet subsTable e.1).getD []) e.2.action e.1 := by
  unfold seqFireOne
  rw [if_neg hd, if_neg (by simp [hc])]

theorem seqFireRuns_length_le_one {subs : List Subscription} {action : Option Bool}
    {sid : String} (hnt : ∀ s ∈ subs, s.throws = false) :
    (seqFireRuns subs action sid).length ≤ 1 := by
  unfold seqFireRuns
  cases subs with
  | nil =>
    cases action <;> simp [seqCallbackLoop]
  | cons sub rest =>
    rw [seqCallbackLoop_head_ok (hnt sub (List.mem_cons_self _ _))]
    simp

theorem seqFireOne_length_le_one {subsTable : List (String × List Subscription)}
    {ctx : Option String} {e : String × ShortcutConfig}
    (hnt : ∀ s ∈ (objGet subsTable e.1).getD [], s.throws = false) :
    (seqFireOne subsTable ctx e).length ≤ 1 := by
  by_cases hd : e.2.status = ShortcutStatus.disabled
  · rw [seqFireOne_disabled hd]
    simp
  · by_cases hc : contextOk ctx e.2.context = true
    · rw [seqFireOne_go hd hc]
      exact seqFireRuns_length_le_one hnt
    · rw [seqFireOne_badContext (by simpa using hc)]
      simp

theorem foldl_append_le {α : Type} {f : α → List HRun} : ∀ (l : List α) (init : List HRun),
    (∀ e ∈ l, (f e).length ≤ 1) →
    (l.foldl (fun runs e => runs ++ f e) init).length ≤ init.length + l.length
  | [], init, _ => by simp
  | e :: rest, init, h => by
    simp only [List.foldl_cons]
    have hrec := foldl_append_le rest (init ++ f e) (fun x hx => h x (List.mem_cons_of_mem _ hx))
    have hfe := h e (List.mem_cons_self _ _)
    simp only [List.length_append] at hrec
    simp only [List.length_cons]
    omega

theorem handleSequence_no_match {bus : EventBus} {now : Nat} {kc : String}
    (h : matchingSequenceEntries bus.shortcuts (jsJoin ' ' (bus.sequenceBuffer ++ [kc])) = []) :
    handleSequence bus now kc =
      ({ bus with
          sequenceBuffer := bus.sequenceBuffer ++ [kc],
          sequenceTimer := some (now + bus.options.sequenceTimeout) }, []) := by
  simp only [handleSequence, h]
  rfl

theorem handleSequence_match {bus : EventBus} {now : Nat} {kc : String}
    (h : matchingSequenceEntries bus.shortcuts (jsJoin ' ' (bus.sequenceBuffer ++ [kc])) ≠ []) :
    handleSequence bus now kc =
      ({ bus with sequenceBuffer := [], sequenceTimer := none },
        (matchingSequenceEntries bus.shortcuts
          (jsJoin ' ' (bus.sequenceBuffer ++ [kc]))).foldl
          (fun runs e => runs ++ seqFireOne bus.subscriptions bus.activeContext e) []) := by
  simp only [handleSequence]
  rw [if_neg (by simpa [List.isEmpty_iff] using h)]

theorem handleSequence_length_le {bus : EventBus} {now : Nat} {keyCombo : String}
    (hnt : noThrowBus bus) :
    (handleSequence bus now keyCombo).2.length ≤
      (matchingSequenceEntries bus.shortcuts
        (jsJoin ' ' (bus.sequenceBuffer ++ [keyCombo]))).length := by
  by_cases he : matchingSequenceEntries bus.shortcuts
      (jsJoin ' ' (bus.sequenceBuffer ++ [keyCombo])) = []
  · rw [handleSequence_no_match he]
    simp
  · rw [handleSequence_match he]
    have hbound : ∀ e ∈ matchingSequenceEntries bus.shortcuts
        (jsJoin ' ' (bus.sequenceBuffer ++ [keyCombo])),
        (seqFireOne bus.subscriptions bus.activeContext e).length ≤ 1 := by
      intro e _
      refine seqFireOne_length_le_one ?_
      cases hob : objGet bus.subscriptions e.1 with
      | none => simp
      | some subs =>
        intro s hs
        exact hnt (e.1, subs) (objGet_mem hob) s (by simpa using hs)
    have := @foldl_append_le _ (fun e => seqFireOne bus.subscriptions bus.activeContext e)
      (matchingSequenceEntries bus.shortcuts (jsJoin ' ' (bus.sequenceBuffer ++ [keyCombo])))
      [] hbound
    simpa using this

theorem handleSequence_preserves (bus : EventBus) (now : Nat) (keyCombo : String) :
    (handleSequence bus now keyCombo).1.shortcuts = bus.shortcuts ∧
    (handleSequence bus now keyCombo).1.subscriptions = bus.subscriptions ∧
    (handleSequence bus now keyCombo).1.activeContext = bus.activeContext := by
  by_cases he : matchingSequenceEntries bus.shortcuts
      (jsJoin ' ' (bus.sequenceBuffer ++ [keyCombo])) = []
  · rw [handleSequence_no_match he]
    exact ⟨rfl, rfl, rfl⟩
  · rw [handleSequence_match he]
    exact ⟨rfl, rfl, rfl⟩

theorem emit_congr {bus1 bus2 : EventBus} (h1 : bus1.subscriptions = bus2.subscriptions)
    (h2 : bus1.shortcuts = bus2.shortcuts) (h3 : bus1.activeContext = bus2.activeContext)
    (kc : String) : emit bus1 kc = emit bus2 kc := by
  unfold emit
  rw [h1, h2, h3]

theorem keydownHandler_le {bus : EventBus} {now : Nat} {ev : KeyEvent}
    (hnt : noThrowBus bus) :
    (keydownHandler bus now ev).2.length ≤
      (matchingSequenceEntries bus.shortcuts
        (jsJoin ' ' (bus.sequenceBuffer ++ [eventToKeyCombo ev]))).length + 1 := by
  unfold keydownHandler
  by_cases hp : bus.paused = true
  · rw [if_pos hp]
    simp
  · rw [if_neg hp]
    by_cases hi : (bus.options.ignoreInputFields && ev.fromInputField) = true
    · rw [if_pos hi]
      simp
    · rw [if_neg hi]
      by_cases hm : (bus.options.ignoreModifierOnlyEvents &&
          modifierOnlyCombos.contains (eventToKeyCombo ev)) = true
      · rw [if_pos hm]
        simp
      · rw [if_neg hm]
        simp only [List.length_append]
        have hpres := handleSequence_preserves bus now (eventToKeyCombo ev)
        have hemit : emit (handleSequence bus now (eventToKeyCombo ev)).1 (eventToKeyCombo ev) =
            emit bus (eventToKeyCombo ev) :=
          emit_congr hpres.2.1 hpres.1 hpres.2.2 _
        rw [hemit]
        have h1 := @handleSequence_length_le bus now (eventToKeyCombo ev) hnt
        have h2 := @emit_length_le_one bus (eventToKeyCombo ev) hnt
        omega

theorem selectChordShortcut_spec {shortcuts : List (String × ShortcutConfig)}
    {ctx : Option String} {nk : String} {e : String × ShortcutConfig}
    (h : selectChordShortcut shortcuts ctx nk = some e) :
    e.2.status = ShortcutStatus.enabled ∧ contextOk ctx e.2.context = true ∧
    e ∈ chordEntries shortcuts nk ∧
    ∀ y ∈ chordEntries shortcuts nk, y.2.status = ShortcutStatus.enabled →
      contextOk ctx y.2.context = true → y.2.priority ≤ e.2.priority := by
  unfold selectChordShortcut at h
  by_cases hne : (chordEntries shortcuts nk).isEmpty = true
  · rw [if_pos hne] at h
    cases h
  · rw [if_neg hne] at h
    have hpred := List.find?_some h
    have hsplit := Bool.and_eq_true_iff.mp hpred
    have hstat : e.2.status = ShortcutStatus.enabled := by
      have := hsplit.1
      simpa using this
    have hctx : contextOk ctx e.2.context = true := hsplit.2
    have hmem : e ∈ sortByPrioDesc (fun x => x.2.priority) (chordEntries shortcuts nk) :=
      List.mem_of_find?_eq_some h
    refine ⟨hstat, hctx, mem_sortByPrioDesc.mp hmem, ?_⟩
    intro y hy hys hyc
    have hysorted : y ∈ sortByPrioDesc (fun x => x.2.priority) (chordEntries shortcuts nk) :=
      mem_sortByPrioDesc.mpr hy
    have hpy : (y.2.status == ShortcutStatus.enabled && contextOk ctx y.2.context) = true := by
      rw [Bool.and_eq_true_iff]
      exact ⟨by simpa using hys, hyc⟩
    rcases find_pairwise_max
        (sortByPrioDesc_pairwise (fun x => x.2.priority) (chordEntries shortcuts nk)) h
        y hysorted hpy with heq | hle
    · exact le_of_eq (congrArg (fun z => z.2.priority) heq)
    · exact hle

theorem emitFallbackSub_runs_registered {shortcuts : List (String × ShortcutConfig)}
    {nk : String} {st : Bool × List HRun} {sub : Subscription}
    (hst : ∀ i sid, HRun.cb i sid ∈ st.2 → (objGet shortcuts sid).isSome = true) :
    ∀ i sid, HRun.cb i sid ∈ (emitFallbackSub shortcuts nk st sub).2 →
      (objGet shortcuts sid).isSome = true := by
  intro i sid hmem
  by_cases hf : st.1 = true
  · rw [emitFallbackSub_skip hf] at hmem
    exact hst i sid hmem
  · have hf2 : st.1 = false := by simpa using hf
    cases hreg : objGet shortcuts sub.shortcutId with
    | none =>
      rw [emitFallbackSub_missing hf2 hreg] at hmem
      exact hst i sid hmem
    | some shortcut =>
      by_cases hm : normalizeKeyCombo (triggerOf shortcut) = nk
      · rw [emitFallbackSub_match hf2 hreg hm] at hmem
        rcases List.mem_append.mp hmem with hmem | hmem
        · exact hst i sid hmem
        · have := List.mem_singleton.mp hmem
          have hsid : sid = sub.shortcutId := by
            injection this with h1 h2
          rw [hsid, hreg]
          rfl
      · rw [emitFallbackSub_nomatch hf2 hreg hm] at hmem
        exact hst i sid hmem

theorem emitFallback_subs_registered {shortcuts : List (String × ShortcutConfig)}
    {nk : String} : ∀ {subs : List Subscription} {st : Bool × List HRun},
    (∀ i sid, HRun.cb i sid ∈ st.2 → (objGet shortcuts sid).isSome = true) →
    ∀ i sid, HRun.cb i sid ∈ (subs.foldl (emitFallbackSub shortcuts nk) st).2 →
      (objGet shortcuts sid).isSome = true
  | [], _, hst => hst
  | sub :: rest, st, hst => by
    simp only [List.foldl_cons]
    exact @emitFallback_subs_registered shortcuts nk rest (emitFallbackSub shortcuts nk st sub)
      (emitFallbackSub_runs_registered hst)

theorem emitFallback_registered {shortcuts : List (String × ShortcutConfig)}
    {subscriptions : List (String × List Subscription)} {nk : String} :
    ∀ i sid, HRun.cb i sid ∈ (emitFallback shortcuts subscriptions nk).2 →
      (objGet shortcuts sid).isSome = true := by
  unfold emitFallback
  suffices hgen : ∀ (bl : List (String × List Subscription)) (st : Bool × List HRun),
      (∀ i sid, HRun.cb i sid ∈ st.2 → (objGet shortcuts sid).isSome = true) →
      ∀ i sid, HRun.cb i sid ∈
        (bl.foldl (fun st e => e.2.foldl (emitFallbackSub shortcuts nk) st) st).2 →
        (objGet shortcuts sid).isSome = true by
    exact hgen subscriptions (false, []) (by intro i sid h; simp at h)
  intro bl
  induction bl with
  | nil => intro st hst; exact hst
  | cons e rest ih =>
    intro st hst
    simp only [List.foldl_cons]
    exact ih _ (emitFallback_subs_registered hst)

theorem matchingSequenceEntries_sub {shortcuts : List (String × ShortcutConfig)}
    {q : String} {e : String × ShortcutConfig}
    (he : e ∈ matchingSequenceEntries shortcuts q) : e ∈ shortcuts :=
  List.mem_of_mem_filter he

theorem seqFireRuns_all_throw {subs : List Subscription} {action : Option Bool} {sid : String}
    (h : ∀ s ∈ subs, s.throws = true) (ha : action.isSome = true) :
    seqFireRuns subs action sid =
      subs.map (fun s => HRun.cb s.id s.shortcutId) ++ [HRun.act sid] := by
  unfold seqFireRuns
  rw [seqCallbackLoop_all_throw h]
  simp [ha]

theorem seqFireRuns_head_ok {sub : Subscription} {rest : List Subscription}
    {action : Option Bool} {sid : String} (h : sub.throws = false) :
    seqFireRuns (sub :: rest) action sid = [HRun.cb sub.id sub.shortcutId] := by
  unfold seqFireRuns
  rw [seqCallbackLoop_head_ok h]
  simp

theorem seqFireRuns_nil {action : Option Bool} {sid : String} :
    seqFireRuns [] action sid = if action.isSome then [HRun.act sid] else [] := by
  unfold seqFireRuns
  cases action <;> simp [seqCallbackLoop]

theorem keydownHandler_drop_modifierOnly {bus : EventBus} {now : Nat} {ev : KeyEvent}
    (hp : bus.paused = false)
    (hi : (bus.options.ignoreInputFields && ev.fromInputField) = false)
    (him : bus.options.ignoreModifierOnlyEvents = true)
    (hin : modifierOnlyCombos.contains (eventToKeyCombo ev) = true) :
    keydownHandler bus now ev = (bus, []) := by
  unfold keydownHandler
  rw [if_neg (by simp [hp]), if_neg (by simp [hi]),
    if_pos (show (bus.options.ignoreModifierOnlyEvents &&
      modifierOnlyCombos.contains (eventToKeyCombo ev)) = true by rw [him, hin]; rfl)]

theorem onShortcut_seq_bucket {bus : EventBus} {id sid : String} {thr : Bool}
    {cfg : ShortcutConfig} {s : String}
    (hreg : objGet bus.shortcuts id = some cfg) (hk : cfg.kind = SKind.sequence s) :
    objGet ((onShortcut bus id sid thr).1).subscriptions (normalizeKeyCombo id) =
      some (sortByPrioDesc (fun sub => sub.priority)
        (((objGet bus.subscriptions (normalizeKeyCombo id)).getD []) ++
          [⟨sid, thr, cfg.priority, id⟩])) := by
  unfold onShortcut
  rw [hreg]
  simp only [hk]
  exact objGet_objSet_self _ _ _

theorem onShortcut_other_bucket {bus : EventBus} {id sid : String} {thr : Bool}
    {cfg : ShortcutConfig} {s k : String}
    (hreg : objGet bus.shortcuts id = some cfg) (hk : cfg.kind = SKind.sequence s)
    (hkne : k ≠ normalizeKeyCombo id) :
    objGet ((onShortcut bus id sid thr).1).subscriptions k = objGet bus.subscriptions k := by
  unfold onShortcut
  rw [hreg]
  simp only [hk]
  exact objGet_objSet_ne _ _ _ _ hkne

theorem sortByPrioDesc_append_ne_nil {α : Type} {prio : α → Int} {l : List α} {x : α} :
    sortByPrioDesc prio (l ++ [x]) ≠ [] := by
  cases l with
  | nil => exact sortByPrioDesc_ne_nil
  | cons a as =>
    show sortByPrioDesc prio (a :: (as ++ [x])) ≠ []
    exact sortByPrioDesc_ne_nil

/-! Claim theorems. -/

/-- C1 counterexample: with two sequence shortcuts seqA and seqB both
registered on the single-chord trigger g, one keydown of g executes both
default actions, so more than one handler runs for a single input event,
refuting the at-most-one-handler law as stated. -/
theorem C1_cex_two_sequence_matches :
    (keydownAt c1bus 0 (evKey "g")).2 = [HRun.act "seqA", HRun.act "seqB"] ∧
    ¬ (keydownAt c1bus 0 (evKey "g")).2.length ≤ 1 :=
  ⟨by decide, by decide⟩

/-- C1 amended: when no subscribed callback throws, the chord dispatch
path (emit) executes at most one handler per event and the sequence path
executes at most one handler per matching sequence entry, so one keydown
executes at most (number of matching sequence entries) + 1 handlers; one
event can still fire several sequence matches plus one chord handler. -/
theorem C1_amended_at_most_one_per_path (bus : EventBus) (now : Nat) (ev : KeyEvent)
    (hnt : noThrowBus bus) :
    (emit bus (eventToKeyCombo ev)).length ≤ 1 ∧
    (handleSequence bus now (eventToKeyCombo ev)).2.length ≤
      (matchingSequenceEntries bus.shortcuts
        (jsJoin ' ' (bus.sequenceBuffer ++ [eventToKeyCombo ev]))).length ∧
    (keydownHandler bus now ev).2.length ≤
      (matchingSequenceEntries bus.shortcuts
        (jsJoin ' ' (bus.sequenceBuffer ++ [eventToKeyCombo ev]))).length + 1 :=
  ⟨emit_length_le_one hnt, handleSequence_length_le hnt, keydownHandler_le hnt⟩

/-- C1 witness: the amended bound applied to the two-sequence bus. -/
theorem C1_amended_witness :
    noThrowBus c1bus ∧
    (keydownHandler c1bus 0 (evKey "g")).2.length ≤
      (matchingSequenceEntries c1bus.shortcuts
        (jsJoin ' ' (c1bus.sequenceBuffer ++ [eventToKeyCombo (evKey "g")]))).length + 1 := by
  have hnt : noThrowBus c1bus := by
    intro e he
    simp [c1bus, mkEventBus] at he
  exact ⟨hnt, (C1_amended_at_most_one_per_path c1bus 0 (evKey "g") hnt).2.2⟩

/-- C2 counterexample: save (ctrl+s) is subscribed to and then disabled;
the next ctrl+s keydown still invokes the subscriber callback through the
direct-subscription path of emit, which consults neither status nor
context. -/
theorem C2_cex_disabled_still_fires :
    (objGet c2bus.shortcuts "save").map ShortcutConfig.status =
      some ShortcutStatus.disabled ∧
    (keydownAt c2bus 0 (evCtrl "s")).2 = [HRun.cb "s1" "save"] :=
  ⟨by decide, by decide⟩

/-- C2 amended: a Disabled or context-mismatched shortcut never fires
through the sequence path or through the chord default-action path, and
disable/enable and context changes toggle default-action firing on the
next keypress; but a chord shortcut with a live subscription under its
normalized combo fires through the direct-subscription path regardless of
status and context. -/
theorem C2_amended_gating :
    (∀ (subsTable : List (String × List Subscription)) (ctx : Option String)
        (e : String × ShortcutConfig),
      e.2.status = ShortcutStatus.disabled ∨ contextOk ctx e.2.context = false →
      seqFireOne subsTable ctx e = []) ∧
    (∀ (shortcuts : List (String × ShortcutConfig)) (ctx : Option String) (nk : String)
        (e : String × ShortcutConfig),
      selectChordShortcut shortcuts ctx nk = some e →
      e.2.status = ShortcutStatus.enabled ∧ contextOk ctx e.2.context = true) ∧
    (keydownAt c2actBus 0 (evCtrl "s")).2 = [HRun.act "save"] ∧
    (keydownAt c2actBusDisabled 0 (evCtrl "s")).2 = [] ∧
    (keydownAt c2actBusReenabled 0 (evCtrl "s")).2 = [HRun.act "save"] ∧
    (keydownAt c2vimBus 0 (evCtrl "q")).2 = [] ∧
    (keydownAt (setContext c2vimBus (some "vim")) 0 (evCtrl "q")).2 =
      [HRun.act "vimEsc"] := by
  refine ⟨?_, ?_, by decide, by decide, by decide, by decide, by decide⟩
  · intro subsTable ctx e h
    rcases h with h | h
    · exact seqFireOne_disabled h
    · exact seqFireOne_badContext h
  · intro shortcuts ctx nk e h
    exact ⟨(selectChordShortcut_spec h).1, (selectChordShortcut_spec h).2.1⟩

/-- C2 witness: the amended gating applied at concrete inputs. -/
theorem C2_amended_witness :
    seqFireOne c3wSubs none
      ("s", mkRegular "g" 100 ShortcutStatus.disabled none (some false)) = [] :=
  C2_amended_gating.1 c3wSubs none
    ("s", mkRegular "g" 100 ShortcutStatus.disabled none (some false))
    (Or.inl (by decide))

/-- C3 counterexample: save (ctrl+s) is subscribed to and then
unregistered; the next ctrl+s keydown still invokes the subscriber
callback through the direct-subscription path of emit, which never
consults the registry. -/
theorem C3_cex_unregistered_still_fires :
    objGet c3bus.shortcuts "save" = none ∧
    (keydownAt c3bus 0 (evCtrl "s")).2 = [HRun.cb "s1" "save"] :=
  ⟨by decide, by decide⟩

/-- C3 amended: a subscription whose shortcut id is absent from the
registry is inert in the fallback-by-shortcut-id pass of emit (which
checks registry presence) and in the sequence path (an unregistered
sequence shortcut can no longer match); only the direct-subscription path
of emit fires it, as the counterexample shows. -/
theorem C3_amended_inert_paths :
    (∀ (shortcuts : List (String × ShortcutConfig))
        (subscriptions : List (String × List Subscription)) (nk i sid : String),
      HRun.cb i sid ∈ (emitFallback shortcuts subscriptions nk).2 →
      (objGet shortcuts sid).isSome = true) ∧
    (∀ (shortcuts : List (String × ShortcutConfig)) (q id : String)
        (e : String × ShortcutConfig),
      objGet shortcuts id = none → e ∈ matchingSequenceEntries shortcuts q →
      e.1 ≠ id) ∧
    (keydownAt (keydownAt c3seqBus 0 (evKey "g")).1 100 (evKey "c")).2 = [] := by
  refine ⟨?_, ?_, by decide⟩
  · intro shortcuts subscriptions nk i sid h
    exact emitFallback_registered i sid h
  · intro shortcuts q id e hid he hne
    have hmem : e ∈ shortcuts := matchingSequenceEntries_sub he
    have : (id, e.2) ∈ shortcuts := by
      rw [← hne]
      exact hmem
    exact objGet_none_not_mem hid e.2 this

/-- C3 witness: the fallback-path registry check applied at a concrete
table where the fallback does invoke a callback. -/
theorem C3_amended_witness :
    HRun.cb "x" "s" ∈ (emitFallback c3wShortcuts c3wSubs "g").2 ∧
    (objGet c3wShortcuts "s").isSome = true :=
  ⟨by decide, C3_amended_inert_paths.1 c3wShortcuts c3wSubs "g" "x" "s" (by decide)⟩

/-- C4 counterexample: with print (priority 100, no subscriber, default
action) and goToFile (priority 90, subscribed) both enabled on ctrl+p,
dispatching ctrl+p fires the goToFile subscriber even though print is the
highest-priority candidate, so the dispatched chord does not always select
the highest-priority candidate. -/
theorem C4_cex_subscriber_overrides_priority :
    (keydownAt c4cexBus 0 (evCtrl "p")).2 = [HRun.cb "sg" "goToFile"] ∧
    (selectChordShortcut c4cexBus.shortcuts c4cexBus.activeContext "ctrl+p").map
      Prod.fst = some "print" ∧
    HRun.act "print" ∉ (keydownAt c4cexBus 0 (evCtrl "p")).2 :=
  ⟨by decide, by decide, by decide⟩

/-- C4 amended: in the cited scenario (print at priority 100 and goToFile
at priority 90 with context editor, both subscribed, active context
editor) pressing ctrl+p fires the highest-priority subscriber of print and
nothing of goToFile; and on the default-action path the selected candidate
is enabled, context-eligible and of maximal priority among the enabled,
context-eligible candidates.  When subscriber sets differ between
candidates, the subscription path can fire a lower-priority candidate, as
the counterexample shows. -/
theorem C4_amended_priority :
    (keydownAt c4bus 0 (evCtrl "p")).2 = [HRun.cb "sp" "print"] ∧
    (∀ (shortcuts : List (String × ShortcutConfig)) (ctx : Option String) (nk : String)
        (e : String × ShortcutConfig),
      selectChordShortcut shortcuts ctx nk = some e →
      e.2.status = ShortcutStatus.enabled ∧ contextOk ctx e.2.context = true ∧
      ∀ y ∈ chordEntries shortcuts nk, y.2.status = ShortcutStatus.enabled →
        contextOk ctx y.2.context = true → y.2.priority ≤ e.2.priority) := by
  refine ⟨by decide, ?_⟩
  intro shortcuts ctx nk e h
  exact ⟨(selectChordShortcut_spec h).1, (selectChordShortcut_spec h).2.1,
    (selectChordShortcut_spec h).2.2.2⟩

/-- C4 witness: the candidate-selection maximality applied at the
two-candidate registry of the scenario. -/
theorem C4_amended_witness :
    selectChordShortcut c4bus.shortcuts (some "editor") "ctrl+p" =
      some ("print", mkRegular "ctrl+p" 100 ShortcutStatus.enabled none (some false)) ∧
    (("print", mkRegular "ctrl+p" 100 ShortcutStatus.enabled none
      (some false)) : String × ShortcutConfig).2.status = ShortcutStatus.enabled := by
  refine ⟨by decide, ?_⟩
  exact (C4_amended_priority.2 c4bus.shortcuts (some "editor") "ctrl+p"
    ("print", mkRegular "ctrl+p" 100 ShortcutStatus.enabled none (some false))
    (by decide)).1

/-- C5: sequence round-trip.  Registering the sequence shortcut gc on
trigger (g then c): feeding g then c before the timeout fires it and
clears the buffer; feeding g, letting the timeout expire (emptying the
buffer), then feeding c does not fire it; and the timeout window is
measured from the last keystroke: with trigger (a b c) and gaps of 900 ms,
the sequence fires even though 1800 ms passed since the first
keystroke. -/
theorem C5_sequence_roundtrip :
    (keydownAt c5bus 0 (evKey "g")).2 = [] ∧
    c5afterG.sequenceBuffer = ["g"] ∧
    c5afterG.sequenceTimer = some (0 + c5bus.options.sequenceTimeout) ∧
    (keydownAt c5afterG 500 (evKey "c")).2 = [HRun.act "gc"] ∧
    (keydownAt c5afterG 500 (evKey "c")).1.sequenceBuffer = [] ∧
    (keydownAt c5afterG 1500 (evKey "c")).2 = [] ∧
    (keydownAt c5afterG 1500 (evKey "c")).1.sequenceBuffer = ["c"] ∧
    (keydownAt (keydownAt c5abcBus 0 (evKey "a")).1 900 (evKey "b")).1.sequenceTimer =
      some (900 + c5abcBus.options.sequenceTimeout) ∧
    (keydownAt (keydownAt (keydownAt c5abcBus 0 (evKey "a")).1 900 (evKey "b")).1
      1800 (evKey "c")).2 = [HRun.act "abc"] :=
  ⟨by decide, by decide, by decide, by decide, by decide, by decide, by decide,
   by decide, by decide⟩

/-- C6: normalizeKeyCombo is idempotent on every string and
order-insensitive in the modifiers: the chords shift+ctrl+s and
Ctrl+Shift+S both normalize to ctrl+shift+s. -/
theorem C6_normalize_idempotent_order_insensitive :
    (∀ x : String, normalizeKeyCombo (normalizeKeyCombo x) = normalizeKeyCombo x) ∧
    normalizeKeyCombo "shift+ctrl+s" = "ctrl+shift+s" ∧
    normalizeKeyCombo "Ctrl+Shift+S" = "ctrl+shift+s" ∧
    normalizeKeyCombo "shift+ctrl+s" = normalizeKeyCombo "Ctrl+Shift+S" :=
  ⟨normalizeKeyCombo_idem, by decide, by decide, by decide⟩

/-- C7 counterexample: for the sequence shortcut gitcommit (trigger g
then c) with subscribers t1 (throws) and t2, the match invokes t1, catches
the throw, and then invokes the lower-priority t2 as a fallback; with only
the throwing t1 subscribed, the default action is invoked after the
caught throw.  Both refute the no-fallback part of the claim for sequence
dispatch. -/
theorem C7_cex_sequence_fallthrough :
    (keydownAt (keydownAt c7seqBus 0 (evKey "g")).1 100 (evKey "c")).2 =
      [HRun.cb "t1" "gitcommit", HRun.cb "t2" "gitcommit"] ∧
    (keydownAt (keydownAt c7seqBus2 0 (evKey "g")).1 100 (evKey "c")).2 =
      [HRun.cb "t1" "gitcommit", HRun.act "gitcommit"] :=
  ⟨by decide, by decide⟩

/-- C7 amended: in chord dispatch (emit) the selected top subscriber is
the only handler invoked, whether or not it throws — no lower-priority
subscription and no default action runs.  In sequence dispatch a throwing
subscriber is caught but dispatch falls through: the next subscriber in
priority order is invoked, and when every subscriber throws the default
action is invoked. -/
theorem C7_amended_error_handling :
    (∀ (bus : EventBus) (kc : String) (sub : Subscription) (rest : List Subscription),
      (objGet bus.subscriptions (normalizeKeyCombo kc)).getD [] = sub :: rest →
      emit bus kc = [HRun.cb sub.id sub.shortcutId]) ∧
    (∀ (sub : Subscription) (rest : List Subscription) (action : Option Bool)
        (sid : String),
      sub.throws = false →
      seqFireRuns (sub :: rest) action sid = [HRun.cb sub.id sub.shortcutId]) ∧
    (∀ (subs : List Subscription) (action : Option Bool) (b : Bool) (sid : String),
      (∀ s ∈ subs, s.throws = true) → action = some b →
      seqFireRuns subs action sid =
        subs.map (fun s => HRun.cb s.id s.shortcutId) ++ [HRun.act sid]) :=
  ⟨fun _ _ _ _ h => emit_direct h,
   fun _ _ _ _ h => seqFireRuns_head_ok h,
   fun _ _ b _ h ha => seqFireRuns_all_throw h (by rw [ha]; rfl)⟩

/-- C7 witness: the chord-path law applied to a bus whose top subscriber
throws. -/
theorem C7_amended_witness :
    (objGet c7chordBus.subscriptions (normalizeKeyCombo "ctrl+s")).getD [] =
      (⟨"t1", true, 100, "save"⟩ : Subscription) :: [⟨"t2", false, 100, "save"⟩] ∧
    emit c7chordBus "ctrl+s" = [HRun.cb "t1" "save"] := by
  refine ⟨by decide, ?_⟩
  exact C7_amended_error_handling.1 c7chordBus "ctrl+s" ⟨"t1", true, 100, "save"⟩
    [⟨"t2", false, 100, "save"⟩] (by decide)

/-- C8 counterexample: pressing Alt while Ctrl is held yields the chord
alt+ctrl (eventToKeyCombo sorts modifiers alphabetically), which has no
primary key, yet it is missing from the literal filter list, so with
ignoreModifierOnlyEvents enabled the event still reaches sequence
accumulation. -/
theorem C8_cex_modifier_combo_not_dropped :
    eventToKeyCombo c8event = "alt+ctrl" ∧
    modifierOnlyCombos.contains (eventToKeyCombo c8event) = false ∧
    c8bus.options.ignoreModifierOnlyEvents = true ∧
    (keydownAt c8bus 0 c8event).1.sequenceBuffer = ["alt+ctrl"] :=
  ⟨by decide, by decide, by decide, by decide⟩

/-- C8 amended: with ignoreModifierOnlyEvents enabled, exactly the events
whose computed chord is in the literal list (the four single modifiers and
the pairs ctrl+alt, ctrl+shift, ctrl+meta, alt+shift, alt+meta,
shift+meta as spelled there) are dropped before sequence accumulation and
chord dispatch; since eventToKeyCombo sorts modifiers alphabetically, the
produced pairs alt+ctrl and meta+shift and all three- and four-modifier
chords miss the list and are not dropped. -/
theorem C8_amended_literal_drop_list :
    (∀ (bus : EventBus) (now : Nat) (ev : KeyEvent),
      bus.paused = false →
      (bus.options.ignoreInputFields && ev.fromInputField) = false →
      bus.options.ignoreModifierOnlyEvents = true →
      modifierOnlyCombos.contains (eventToKeyCombo ev) = true →
      keydownHandler bus now ev = (bus, [])) ∧
    (keydownAt c8bus 0 ⟨true, false, false, false, "Control", false⟩).1 = c8bus ∧
    (keydownAt c8bus 0 ⟨true, false, false, false, "Control", false⟩).2 = [] ∧
    (keydownAt c8bus 0 ⟨true, true, true, false, "Shift", false⟩).1.sequenceBuffer =
      ["alt+ctrl+shift"] ∧
    (keydownAt c8bus 0 ⟨true, true, true, true, "Meta", false⟩).1.sequenceBuffer =
      ["alt+ctrl+meta+shift"] := by
  refine ⟨?_, by decide, by decide, by decide, by decide⟩
  intro bus now ev hp hi him hin
  exact keydownHandler_drop_modifierOnly hp hi him hin

/-- C8 witness: the drop law applied to a bare Control press. -/
theorem C8_amended_witness :
    keydownHandler c8bus 0 ⟨true, false, false, false, "Control", false⟩ = (c8bus, []) :=
  C8_amended_literal_drop_list.1 c8bus 0 ⟨true, false, false, false, "Control", false⟩
    (by decide) (by decide) (by decide) (by decide)

/-- C9: on() stores a sequence subscription under the normalized shortcut
id while handleSequence looks the bucket up under the raw id.  For the
fixed-point id gitcommit the subscriber fires on a match of g then c; for
the id gitCommit (normalized to gitcommit) a live subscriber exists but
is never invoked on a match, and the default action runs instead.  The
general conjuncts: a fixed-point id has a non-empty bucket under the raw
id after subscribing; a matched enabled context-eligible entry with an
empty raw-id bucket and an action fires just the action; one with a
non-throwing head subscriber fires just that callback. -/
theorem C9_sequence_subscription_key_mismatch :
    (keydownAt (keydownAt c9busA 0 (evKey "g")).1 100 (evKey "c")).2 =
      [HRun.cb "s1" "gitcommit"] ∧
    normalizeKeyCombo "gitCommit" = "gitcommit" ∧
    (objGet c9busB.subscriptions "gitcommit").isSome = true ∧
    objGet c9busB.subscriptions "gitCommit" = none ∧
    (keydownAt (keydownAt c9busB 0 (evKey "g")).1 100 (evKey "c")).2 =
      [HRun.act "gitCommit"] ∧
    (∀ (bus : EventBus) (id sid : String) (thr : Bool) (cfg : ShortcutConfig)
        (s : String),
      objGet bus.shortcuts id = some cfg → cfg.kind = SKind.sequence s →
      normalizeKeyCombo id = id →
      (objGet ((onShortcut bus id sid thr).1).subscriptions id).getD [] ≠ []) ∧
    (∀ (subsTable : List (String × List Subscription)) (ctx : Option String)
        (id : String) (cfg : ShortcutConfig) (b : Bool),
      cfg.status ≠ ShortcutStatus.disabled → contextOk ctx cfg.context = true →
      objGet subsTable id = none → cfg.action = some b →
      seqFireOne subsTable ctx (id, cfg) = [HRun.act id]) ∧
    (∀ (subsTable : List (String × List Subscription)) (ctx : Option String)
        (id : String) (cfg : ShortcutConfig) (sub : Subscription)
        (rest : List Subscription),
      cfg.status ≠ ShortcutStatus.disabled → contextOk ctx cfg.context = true →
      sub.throws = false → objGet subsTable id = some (sub :: rest) →
      seqFireOne subsTable ctx (id, cfg) = [HRun.cb sub.id sub.shortcutId]) := by
  refine ⟨by decide, by decide, by decide, by decide, by decide, ?_, ?_, ?_⟩
  · intro bus id sid thr cfg s hreg hk hfix
    have hb := @onShortcut_seq_bucket bus id sid thr cfg s hreg hk
    rw [hfix] at hb
    rw [hb]
    simp only [Option.getD_some]
    exact sortByPrioDesc_append_ne_nil
  · intro subsTable ctx id cfg b hd hc hob ha
    rw [seqFireOne_go hd hc]
    simp only [hob, Option.getD_none]
    rw [seqFireRuns_nil]
    simp [ha]
  · intro subsTable ctx id cfg sub rest hd hc hthr hob
    rw [seqFireOne_go hd hc]
    simp only [hob, Option.getD_some]
    exact seqFireRuns_head_ok hthr

/-- C9 witness: the general conjuncts applied at the gitcommit bus. -/
theorem C9_witness :
    (objGet ((onShortcut
      (mkEventBus
        [("gitcommit", mkSequence "g c" 100 ShortcutStatus.enabled none (some false))]
        defaultOptions)
      "gitcommit" "s1" false).1).subscriptions "gitcommit").getD [] ≠ [] := by
  exact C9_sequence_subscription_key_mismatch.2.2.2.2.2.1
    (mkEventBus
      [("gitcommit", mkSequence "g c" 100 ShortcutStatus.enabled none (some false))]
      defaultOptions)
    "gitcommit" "s1" false
    (mkSequence "g c" 100 ShortcutStatus.enabled none (some false)) "g c"
    (by decide) (by decide) (by decide)

/-- C10: getShortcuts returns a fresh top-level copy of the registry
object: the returned reference differs from the internal one, its entries
are the very same config values as the registry, and inserting or deleting
on the returned object leaves the internal registry — and hence group
queries and chord candidate selection over it — unchanged. -/
theorem C10_getShortcuts_fresh_copy (h : Heap) (r : Nat) (hr : r < h.next)
    (k : String) (v : ShortcutConfig) (g : String) :
    (getShortcutsHeap h r).2 ≠ r ∧
    (getShortcutsHeap h r).1.mem (getShortcutsHeap h r).2 = h.mem r ∧
    (heapSetEntry (getShortcutsHeap h r).1 (getShortcutsHeap h r).2 k v).mem r =
      h.mem r ∧
    (heapDeleteEntry (getShortcutsHeap h r).1 (getShortcutsHeap h r).2 k).mem r =
      h.mem r ∧
    getShortcutsByGroup
      ((heapSetEntry (getShortcutsHeap h r).1 (getShortcutsHeap h r).2 k v).mem r) g =
      getShortcutsByGroup (h.mem r) g ∧
    (∀ (ctx : Option String) (nk : String),
      selectChordShortcut
        ((heapSetEntry (getShortcutsHeap h r).1 (getShortcutsHeap h r).2 k v).mem r)
        ctx nk =
      selectChordShortcut (h.mem r) ctx nk) := by
  have hrne : r ≠ h.next := by omega
  have h2 : (getShortcutsHeap h r).1.mem (getShortcutsHeap h r).2 = h.mem r := by
    simp [getShortcutsHeap, heapAlloc]
  have h3 : (heapSetEntry (getShortcutsHeap h r).1 (getShortcutsHeap h r).2 k v).mem r =
      h.mem r := by
    simp [getShortcutsHeap, heapAlloc, heapSetEntry, hrne]
  have h4 : (heapDeleteEntry (getShortcutsHeap h r).1 (getShortcutsHeap h r).2 k).mem r =
      h.mem r := by
    simp [getShortcutsHeap, heapAlloc, heapDeleteEntry, hrne]
  refine ⟨?_, h2, h3, h4, by rw [h3], fun ctx nk => by rw [h3]⟩
  show (getShortcutsHeap h r).2 ≠ r
  simp only [getShortcutsHeap, heapAlloc]
  omega

/-- C10 witness: the copy law applied to a one-object heap. -/
theorem C10_witness :
    0 < c10heap.next ∧
    (heapSetEntry (getShortcutsHeap c10heap 0).1 (getShortcutsHeap c10heap 0).2 "x"
      (mkRegular "ctrl+x" 1 ShortcutStatus.enabled none none)).mem 0 = c10heap.mem 0 :=
  ⟨by decide,
    (C10_getShortcuts_fresh_copy c10heap 0 (by decide) "x"
      (mkRegular "ctrl+x" 1 ShortcutStatus.enabled none none) "File").2.2.1⟩

end KeyHub